import Mathlib

/-!
# glsgen: the repository-measurement pipeline of the Go plugin

A shallow embedding of `pkg/plugins/goplg/plugin.go` and
`internal/pkg/utils/utils.go`.

* Go slices are Lean lists, Go maps are functions from keys.
* Go `int` is a 64-bit two's complement integer: `Int` with `wrapInt`.
* External collaborators (the persisted store, the line counter, the manifest
  parser, the shell commands) are explicit state or explicit parameters.
-/

namespace Glsgen

/-! ## internal/pkg/utils/utils.go -/

/-- The `for _, elem := range slice` loop of `RemoveDuplicates`: `seen` is the
key set of the map, `result` the slice built so far. -/
def removeDuplicatesLoop : List String → List String → List String → List String
  | [], _, result => result
  | elem :: rest, seen, result =>
    if elem ∈ seen then removeDuplicatesLoop rest seen result
    else removeDuplicatesLoop rest (elem :: seen) (result ++ [elem])

/-- `RemoveDuplicates(slice []string) []string`. -/
def RemoveDuplicates (slice : List String) : List String :=
  removeDuplicatesLoop slice [] []

/-- The spec's reading of deduplication: keep every element at its first
occurrence, drop every later copy. -/
def firstOccurrences : List String → List String
  | [] => []
  | x :: xs => x :: (firstOccurrences xs).filter (fun y => decide (y ≠ x))

/-- A Go value as `reflect` sees it: its kind and, for the kinds the code
inspects, its content. `ptr none` is a nil pointer. -/
inductive Value where
  | str (s : String)
  | int (n : Int)
  | bool (b : Bool)
  | struct (fields : List Value)
  | ptr (target : Option Value)

/-- How a call ends when it does not return normally. -/
inductive Abort where
  | panicked
  | fatal
  | deadlocked
  deriving DecidableEq, Repr

/-- `reflect.Value.Elem`: defined on pointers only, panics on any other kind.
The element of a nil pointer is the zero `Value`, rendered here as `none`. -/
def Value.Elem : Value → Except Abort (Option Value)
  | Value.ptr t => Except.ok t
  | _ => Except.error Abort.panicked

/-- `reflect.Value.NumField` together with `Field(i)`: the fields of a struct,
a panic on any other kind and on the zero `Value`. -/
def Value.Fields : Option Value → Except Abort (List Value)
  | some (Value.struct fs) => Except.ok fs
  | _ => Except.error Abort.panicked

/-- The test `valueField.Kind() == reflect.String`. -/
def Value.isString : Value → Bool
  | Value.str _ => true
  | _ => false

/-- The field loop of `CheckEmptyFields`, with its `break`. -/
def checkEmptyFieldsLoop : List Value → Bool → Bool
  | [], isEmpty => isEmpty
  | Value.str s :: rest, isEmpty =>
    if s = "" then true else checkEmptyFieldsLoop rest isEmpty
  | _ :: rest, isEmpty => checkEmptyFieldsLoop rest isEmpty

/-- `CheckEmptyFields(s interface{}) bool`. -/
def CheckEmptyFields (s : Value) : Except Abort Bool :=
  match s.Elem with
  | Except.error e => Except.error e
  | Except.ok val =>
    match Value.Fields val with
    | Except.error e => Except.error e
    | Except.ok fields => Except.ok (checkEmptyFieldsLoop fields false)

/-! ## Go integers and `strconv.Itoa` -/

/-- A Go `int` on a 64-bit platform: the two's complement value of `x`. -/
def wrapInt (x : Int) : Int := (x + 2 ^ 63) % 2 ^ 64 - 2 ^ 63

/-- Go `a + b` on `int`. -/
def goAdd (a b : Int) : Int := wrapInt (a + b)

/-- `strconv.Itoa`: the decimal rendering, with a leading minus sign for a
negative number. -/
def Itoa (n : Int) : String :=
  if n < 0 then "-" ++ Nat.repr n.natAbs else Nat.repr n.natAbs

/-! ## The data model of pkg/plugins/goplg/plugin.go -/

/-- Modelled from the spec: `models.Repository`, the Repository record of the
data model. The fields are the ones `plugin.go` reads and writes; `ID` is the
primary key the store assigns, zero on a struct that was never stored. -/
structure Repository where
  ID : Nat
  RepositoryName : String
  RepositoryUrl : String
  OpenIssueCount : String
  ClosedIssueCount : String
  CommitCount : String
  OriginalCodebaseSize : String
  LibraryCodebaseSize : String
  RepositoryType : String
  PrimaryLanguage : String
  CreationDate : String
  StargazerCount : String
  LicenseInfo : String
  LatestRelease : String
  deriving DecidableEq, Repr

/-- The zero value of `models.Repository` (`var r models.Repository`). -/
def Repository.zero : Repository :=
  { ID := 0, RepositoryName := "", RepositoryUrl := "", OpenIssueCount := "",
    ClosedIssueCount := "", CommitCount := "", OriginalCodebaseSize := "",
    LibraryCodebaseSize := "", RepositoryType := "", PrimaryLanguage := "",
    CreationDate := "", StargazerCount := "", LicenseInfo := "", LatestRelease := "" }

/-- Modelled from the spec: `GoMod`, the Manifest record. `Require` holds the
required dependency identifiers, `Replace` the new paths of the replace
directives. A nil `*GoMod` is `none` wherever a manifest is looked up. -/
structure GoMod where
  Module : String
  Require : List String
  Replace : List String
  deriving DecidableEq, Repr

/-- Modelled from the spec: the fields of `models.GitHubResponseStruct` that
`fetchRepositories` reads from the platform response. -/
structure GitHubResponse where
  OpenIssuesTotalCount : Int
  ClosedIssuesTotalCount : Int
  HistoryTotalCount : Int
  StargazerCount : Int
  LicenseInfoKey : String
  PrimaryLanguageName : String
  CreatedAt : String
  LatestReleasePublishedAt : String
  deriving DecidableEq, Repr

/-! ## The persisted store

The table `repositories` is the list of its rows in primary-key order. The
store is reached through a gorm handle; the three calls the plugin makes are
rendered with the library's documented behaviour: `First` returns the row with
the least primary key among the matches, `Create` assigns the next key, and
`Updates` with a struct writes the non-zero fields only. -/

/-- `DatabaseClient.Where("repository_url = ?", url).First(&r)`: the first row
with that URL, `none` for the record-not-found error. -/
def dbFirst (db : List Repository) (url : String) : Option Repository :=
  db.find? (fun r => decide (r.RepositoryUrl = url))

/-- The primary key the store gives the next created row. -/
def dbNextID (db : List Repository) : Nat :=
  (db.map (fun r => r.ID)).foldr max 0 + 1

/-- `DatabaseClient.Create(&r)`: appends the row under a fresh primary key and
writes the key back into the struct. -/
def dbCreate (r : Repository) (db : List Repository) : List Repository × Repository :=
  let row := { r with ID := dbNextID db }
  (db ++ [row], row)

/-- One column of an update from a struct: a zero (empty) value is skipped. -/
def nonZero (new old : String) : String := if new = "" then old else new

/-- The row after `Updates(r)`: every non-empty field of `r` overwrites the
column, the primary key stays. -/
def Repository.mergeNonZero (row r : Repository) : Repository :=
  { ID := row.ID,
    RepositoryName := nonZero r.RepositoryName row.RepositoryName,
    RepositoryUrl := nonZero r.RepositoryUrl row.RepositoryUrl,
    OpenIssueCount := nonZero r.OpenIssueCount row.OpenIssueCount,
    ClosedIssueCount := nonZero r.ClosedIssueCount row.ClosedIssueCount,
    CommitCount := nonZero r.CommitCount row.CommitCount,
    OriginalCodebaseSize := nonZero r.OriginalCodebaseSize row.OriginalCodebaseSize,
    LibraryCodebaseSize := nonZero r.LibraryCodebaseSize row.LibraryCodebaseSize,
    RepositoryType := nonZero r.RepositoryType row.RepositoryType,
    PrimaryLanguage := nonZero r.PrimaryLanguage row.PrimaryLanguage,
    CreationDate := nonZero r.CreationDate row.CreationDate,
    StargazerCount := nonZero r.StargazerCount row.StargazerCount,
    LicenseInfo := nonZero r.LicenseInfo row.LicenseInfo,
    LatestRelease := nonZero r.LatestRelease row.LatestRelease }

/-- `DatabaseClient.Model(&r).Updates(r)`: updates the row whose primary key is
`r.ID`; with a zero primary key there is no row to address. -/
def dbUpdates (r : Repository) (db : List Repository) : List Repository :=
  if r.ID = 0 then db
  else db.map (fun row => if row.ID = r.ID then row.mergeNonZero r else row)

/-- A table with a primary key: keys are positive and no two rows share one. -/
def StoreOK (db : List Repository) : Prop :=
  (db.map (fun r => r.ID)).Nodup ∧ ∀ r ∈ db, r.ID ≠ 0

/-- Modelled from the spec: `GoPlugin.repositoryExists`, true when an existing
record has the canonical URL of `r`. -/
def repositoryExists (db : List Repository) (r : Repository) : Bool :=
  (dbFirst db r.RepositoryUrl).isSome

/-- Modelled from the spec: `GoPlugin.hasBeenEnriched`, true when the
commit-count field is no longer empty. -/
def hasBeenEnriched (r : Repository) : Bool :=
  decide (r.CommitCount ≠ "")

/-! ## External commands and the run state -/

/-- The steps of a stage that the trace records: the external commands, the
line counts, the manifest parses, the additions to a running total and the
updates of the store. -/
inductive Action where
  | gitClone (url dest : String)
  | countRepository (path : String)
  | parseGoMod (path : String)
  | goGet (library url : String)
  | countLibrary (library path : String)
  | addToTotal (library : String) (value : Int)
  | dbUpdates (r : Repository)
  | prune
  deriving DecidableEq, Repr

/-- An action together with the index of the repository it was issued for. -/
structure Event where
  origin : Nat
  action : Action
  deriving DecidableEq, Repr

/-- The functions of the package that live outside `plugin.go`, and the
answers of the external tools. The line counter and the manifest parser read
the file system, so their answers may depend on everything done so far. -/
structure Env where
  calculateCodeLines : List Event → String → Int
  parseGoMod : List Event → String → Option GoMod
  isLocalPath : String → Bool
  trimFirstRune : String → String
  downloadableFormat : String → String
  parseLibraryUrl : String → String
  ParseRepository : String → String × String
  GetProcessDirPath : String
  MaxRoutines : Int

/-- The fields of `GoPlugin` that the stages mutate, the store behind
`DatabaseClient`, the actions issued so far and whether the process is still
running. -/
structure State where
  db : List Repository
  LibraryCache : String → Option Int
  GoMods : String → Option GoMod
  DependencyMap : String → List String
  trace : List Event
  status : Option Abort

/-- Records an action of the worker of repository `i`. -/
def State.emit (st : State) (i : Nat) (a : Action) : State :=
  { st with trace := st.trace ++ [{ origin := i, action := a }] }

/-- Go `m[k] = v` on a map. -/
def mapSet {β : Type} (m : String → β) (k : String) (v : β) : String → β :=
  fun k2 => if k2 = k then v else m k2

/-! ## generateDependenciesMap -/

/-- The loop over the replace directives in `generateDependenciesMap`: a
directive with a local path has its nested manifest parsed and, when that
succeeds, the nested requirements appended. -/
def replaceLoop (env : Env) (i : Nat) (repositoryName repositoryUrl : String) :
    List String → State → State
  | [], st => st
  | replacePath :: rest, st =>
    if env.isLocalPath replacePath then
      let innerModFilePath := env.GetProcessDirPath ++ "/" ++ "pkg/mod" ++ "/"
        ++ repositoryUrl ++ env.trimFirstRune replacePath ++ "/" ++ "go.mod"
      let innerModuleFile := env.parseGoMod st.trace innerModFilePath
      let st1 := st.emit i (Action.parseGoMod innerModFilePath)
      match innerModuleFile with
      | none => replaceLoop env i repositoryName repositoryUrl rest st1
      | some inner =>
        let merged := st1.DependencyMap repositoryName ++ inner.Require
        replaceLoop env i repositoryName repositoryUrl rest
          { st1 with DependencyMap := mapSet st1.DependencyMap repositoryName merged }
    else replaceLoop env i repositoryName repositoryUrl rest st

/-- `GoPlugin.generateDependenciesMap`. Reading `.Require` through a nil
`*GoMod` is a nil pointer dereference: the goroutine panics before the map is
touched. -/
def generateDependenciesMap (env : Env) (i : Nat) (repository : Repository)
    (st : State) : State :=
  let repositoryName := repository.RepositoryName
  let repositoryUrl := repository.RepositoryUrl
  match st.GoMods repositoryUrl with
  | none => { st with status := some Abort.panicked }
  | some goMod =>
    let merged := st.DependencyMap repositoryName ++ goMod.Require
    let st1 := { st with DependencyMap := mapSet st.DependencyMap repositoryName merged }
    let st2 := replaceLoop env i repositoryName repositoryUrl goMod.Replace st1
    let unique := RemoveDuplicates (st2.DependencyMap repositoryName)
    { st2 with DependencyMap := mapSet st2.DependencyMap repositoryName unique }

/-! ## processRepositories -/

/-- The body of the goroutine that `processRepositories` launches for the
repository at index `i`; the second component is the new `unprocessedRepositories[i]`. -/
def processRepositoryWorker (env : Env) (i : Nat) (repo : Repository) (st : State) :
    State × Repository :=
  let repositoryUrl := "https://" ++ repo.RepositoryUrl ++ ".git"
  let st1 := st.emit i (Action.gitClone repositoryUrl ("tmp" ++ "/" ++ repo.RepositoryName))
  let repositoryCodeLines := env.calculateCodeLines st1.trace ("tmp" ++ "/" ++ repo.RepositoryName)
  let st2 := st1.emit i (Action.countRepository ("tmp" ++ "/" ++ repo.RepositoryName))
  let goMod := env.parseGoMod st2.trace (repo.RepositoryName ++ "/" ++ "go.mod")
  let st3 := st2.emit i (Action.parseGoMod (repo.RepositoryName ++ "/" ++ "go.mod"))
  let st4 := { st3 with GoMods := mapSet st3.GoMods repo.RepositoryUrl goMod }
  let st5 := generateDependenciesMap env i repo st4
  match st5.status with
  | some _ => (st5, repo)
  | none =>
    match dbFirst st5.db repo.RepositoryUrl with
    | none => ({ st5 with status := some Abort.fatal }, repo)
    | some found =>
      let repositoryStruct := { found with OriginalCodebaseSize := Itoa repositoryCodeLines }
      let st6 := st5.emit i (Action.dbUpdates repositoryStruct)
      ({ st6 with db := dbUpdates repositoryStruct st6.db }, repositoryStruct)

/-- One pass of the `for i` loop of `processRepositories`. The loop waits for
its worker inside the iteration, so at most one worker runs at a time. With
`MaxRoutines = 0` the channel is unbuffered and `semaphore <- 1` never returns. -/
def processRepositoriesIter (env : Env) (i : Nat) (repo : Repository) (st : State) :
    State × Repository :=
  let databaseEntry := (dbFirst st.db repo.RepositoryUrl).getD Repository.zero
  if databaseEntry.OriginalCodebaseSize = "" ∧ databaseEntry.RepositoryName ≠ "" then
    if env.MaxRoutines = 0 then ({ st with status := some Abort.deadlocked }, repo)
    else
      let out := processRepositoryWorker env i repo st
      match out.1.status with
      | some _ => out
      | none => (out.1.emit i Action.prune, out.2)
  else (st.emit i Action.prune, repo)

/-- The `for i` loop of `processRepositories` from index `i` on, over the
slots not yet visited. Nothing runs once the process has stopped. -/
def processRepositoriesLoop (env : Env) : Nat → List Repository → State →
    State × List Repository
  | _, [], st => (st, [])
  | i, repo :: rest, st =>
    match st.status with
    | some _ => (st, repo :: rest)
    | none =>
      let out := processRepositoriesIter env i repo st
      let tail := processRepositoriesLoop env (i + 1) rest out.1
      (tail.1, out.2 :: tail.2)

/-- `GoPlugin.processRepositories`: the final state and the returned slice.
`make(chan int, g.MaxRoutines)` panics for a negative capacity. -/
def processRepositories (env : Env) (unprocessedRepositories : List Repository)
    (st : State) : State × List Repository :=
  if env.MaxRoutines < 0 then
    ({ st with status := some Abort.panicked }, unprocessedRepositories)
  else processRepositoriesLoop env 0 unprocessedRepositories st

/-! ## processLibraries -/

/-- The value of `libraryPath` for a dependency: where the module cache keeps
its download. -/
def libraryPath (env : Env) (library : String) : String :=
  env.GetProcessDirPath ++ "/" ++ "pkg/mod" ++ "/" ++ env.parseLibraryUrl library

/-- The body of the `for j` loop of `processLibraries` for the dependency
`library` of repository `i`: the state and the running total after it. -/
def processLibrary (env : Env) (i : Nat) (acc : State × Int) (library : String) :
    State × Int :=
  let st := acc.1
  let totalLibraryCodeLines := acc.2
  match st.LibraryCache library with
  | some value =>
    (st.emit i (Action.addToTotal library value), goAdd totalLibraryCodeLines value)
  | none =>
    let st1 := st.emit i (Action.goGet library (env.downloadableFormat library))
    let libraryCodeLines := env.calculateCodeLines st1.trace (libraryPath env library)
    let st2 := st1.emit i (Action.countLibrary library (libraryPath env library))
    let st3 := { st2 with LibraryCache := mapSet st2.LibraryCache library (some libraryCodeLines) }
    (st3.emit i (Action.addToTotal library libraryCodeLines),
      goAdd totalLibraryCodeLines libraryCodeLines)

/-- One pass of the `for i` loop of `processLibraries`; the second component is
the new `repositoriesWithoutLibrarySize[i]`. -/
def processLibrariesIter (env : Env) (i : Nat) (repo : Repository) (st : State) :
    State × Repository :=
  if repo.LibraryCodebaseSize = "" then
    let acc := (st.DependencyMap repo.RepositoryName).foldl (processLibrary env i) (st, 0)
    let st1 := acc.1.emit i Action.prune
    match dbFirst st1.db repo.RepositoryUrl with
    | none => ({ st1 with status := some Abort.fatal }, repo)
    | some found =>
      let repositoryStruct := { found with LibraryCodebaseSize := Itoa acc.2 }
      let st2 := st1.emit i (Action.dbUpdates repositoryStruct)
      ({ st2 with db := dbUpdates repositoryStruct st2.db }, repositoryStruct)
  else (st, repo)

/-- The `for i` loop of `processLibraries` from index `i` on. -/
def processLibrariesLoop (env : Env) : Nat → List Repository → State →
    State × List Repository
  | _, [], st => (st, [])
  | i, repo :: rest, st =>
    match st.status with
    | some _ => (st, repo :: rest)
    | none =>
      let out := processLibrariesIter env i repo st
      let tail := processLibrariesLoop env (i + 1) rest out.1
      (tail.1, out.2 :: tail.2)

/-- `GoPlugin.processLibraries`: the final state and the returned slice. The
copies of go.mod and go.sum around the loop touch no field of the state. -/
def processLibraries (env : Env) (repositoriesWithoutLibrarySize : List Repository)
    (st : State) : State × List Repository :=
  processLibrariesLoop env 0 repositoriesWithoutLibrarySize st

/-- The dependency identifiers the line counter was asked to measure, in the
order of the requests. -/
def measured (trace : List Event) : List String :=
  trace.filterMap (fun e =>
    match e.action with
    | Action.countLibrary library _ => some library
    | _ => none)

/-- The dependency identifiers the download command was run for, in the order
of the runs. -/
def downloaded (trace : List Event) : List String :=
  trace.filterMap (fun e =>
    match e.action with
    | Action.goGet library _ => some library
    | _ => none)

/-- Since the trace `t0`, every run of the download command was followed by one
request to the line counter for the same dependency, and the line counter was
asked for nothing else. -/
def Paired (t0 : List Event) (st : State) : Prop :=
  ∃ new, st.trace = t0 ++ new ∧ downloaded new = measured new

/-! ## fetchRepositories: discovery

The discovery loop starts one goroutine per search result, at most
`MaxRoutines` of them at a time. A goroutine touches shared state three times:
it asks the store whether the repository exists, it creates the record, and it
appends to `newRepositories` under the mutex. The scheduler may interleave
these steps of different goroutines in any order. -/

/-- Where the goroutine of one search result stands. -/
inductive Phase where
  | waiting
  | launched
  | absent
  | created (repository : Repository)
  | finished
  deriving DecidableEq, Repr

/-- The shared state of the discovery loop. -/
structure Discovery where
  db : List Repository
  newRepositories : List Repository
  phases : List Phase
  deriving DecidableEq, Repr

/-- The struct literal built for the search result `name`. -/
def bareRepository (env : Env) (name : String) : Repository :=
  { Repository.zero with
    RepositoryName := (env.ParseRepository name).2, RepositoryUrl := name }

/-- A goroutine holds a slot of the semaphore from its launch to its end. -/
def Phase.active : Phase → Bool
  | Phase.launched => true
  | Phase.absent => true
  | Phase.created _ => true
  | _ => false

/-- The state before the loop: no goroutine launched. -/
def Discovery.init (db : List Repository) (names : List String) : Discovery :=
  { db := db, newRepositories := [], phases := names.map (fun _ => Phase.waiting) }

/-- All goroutines have ended: `waitGroup.Wait()` returns. -/
def Discovery.done (s : Discovery) : Bool :=
  s.phases.all (fun p => decide (p = Phase.finished))

/-- The next step of the goroutine of search result `i`, `none` when the
goroutine cannot move: the loop launches the goroutines in order and only
while the semaphore has a free slot. -/
def discoveryStep (env : Env) (names : List String) (i : Nat) (s : Discovery) :
    Option Discovery :=
  match names[i]?, s.phases[i]? with
  | some _, some Phase.waiting =>
    if (s.phases.take i).all (fun p => decide (p ≠ Phase.waiting))
        ∧ ((s.phases.filter Phase.active).length : Int) < env.MaxRoutines then
      some { s with phases := s.phases.set i Phase.launched }
    else none
  | some name, some Phase.launched =>
    if repositoryExists s.db (bareRepository env name) then
      some { s with phases := s.phases.set i Phase.finished }
    else some { s with phases := s.phases.set i Phase.absent }
  | some name, some Phase.absent =>
    let out := dbCreate (bareRepository env name) s.db
    some { s with db := out.1, phases := s.phases.set i (Phase.created out.2) }
  | some _, some (Phase.created repository) =>
    some { s with newRepositories := s.newRepositories ++ [repository],
                  phases := s.phases.set i Phase.finished }
  | _, _ => none

/-- Runs the goroutine steps in the order the schedule names them; `none` when
the schedule asks for a step that cannot be taken. -/
def runDiscovery (env : Env) (names : List String) : List Nat → Discovery → Option Discovery
  | [], s => some s
  | i :: schedule, s =>
    match discoveryStep env names i s with
    | none => none
    | some s2 => runDiscovery env names schedule s2

/-- No two records share a `RepositoryUrl`. -/
def UniqueUrls (db : List Repository) : Prop :=
  (db.map (fun r => r.RepositoryUrl)).Nodup

/-! ## fetchRepositories: enrichment -/

/-- The assignments to `currentRepository` between the lookup and the update. -/
def enrichedRecord (currentRepository : Repository) (repositoryName repositoryUrl : String)
    (response : GitHubResponse) : Repository :=
  { currentRepository with
    RepositoryName := repositoryName,
    RepositoryUrl := repositoryUrl,
    OpenIssueCount := Itoa response.OpenIssuesTotalCount,
    ClosedIssueCount := Itoa response.ClosedIssuesTotalCount,
    CommitCount := Itoa response.HistoryTotalCount,
    RepositoryType := "primary",
    PrimaryLanguage := response.PrimaryLanguageName,
    CreationDate := response.CreatedAt,
    StargazerCount := Itoa response.StargazerCount,
    LicenseInfo := response.LicenseInfoKey,
    LatestRelease := response.LatestReleasePublishedAt }

/-- The body of the enrichment goroutine for `newRepository`, given the parsed
platform response: the store after it, or the fatal exit of `CheckErr` when the
record is not found. -/
def enrichRepository (env : Env) (response : GitHubResponse) (newRepository : Repository)
    (db : List Repository) : Except Abort (List Repository) :=
  if hasBeenEnriched newRepository then Except.ok db
  else
    let repositoryName := (env.ParseRepository newRepository.RepositoryUrl).2
    match dbFirst db newRepository.RepositoryUrl with
    | none => Except.error Abort.fatal
    | some currentRepository =>
      Except.ok (dbUpdates
        (enrichedRecord currentRepository repositoryName newRepository.RepositoryUrl response) db)

/-! ## Concrete inputs -/

/-- An environment whose tools find nothing: every count is zero, no manifest
parses, identifiers are used as they are. -/
def quietEnv (maxRoutines : Int) : Env :=
  { calculateCodeLines := fun _ _ => 0,
    parseGoMod := fun _ _ => none,
    isLocalPath := fun _ => false,
    trimFirstRune := fun p => p,
    downloadableFormat := fun l => l,
    parseLibraryUrl := fun l => l,
    ParseRepository := fun url => ("", url),
    GetProcessDirPath := "",
    MaxRoutines := maxRoutines }

/-- A state with an empty store, empty maps and no action issued. -/
def emptyState : State :=
  { db := [], LibraryCache := fun _ => none, GoMods := fun _ => none,
    DependencyMap := fun _ => [], trace := [], status := none }

/-- A stored, not yet measured repository. -/
def repoA : Repository :=
  { Repository.zero with ID := 1, RepositoryName := "a", RepositoryUrl := "github.com/org/a" }

/-- A manifest with one requirement and no replace directive. -/
def manifestX : GoMod :=
  { Module := "github.com/org/a", Require := ["example.com/x"], Replace := [] }

/-- A state whose store holds `repoA` and nothing else. -/
def stateA : State := { emptyState with db := [repoA] }

/-- The state `stateA` after the manifest of `repoA` was parsed to `manifestX`. -/
def stateAX : State :=
  { stateA with GoMods := mapSet stateA.GoMods "github.com/org/a" (some manifestX) }

/-- A platform response: 0 open issues, 3 closed issues, 10 commits, 7 stars,
license mit. -/
def responseMit : GitHubResponse :=
  { OpenIssuesTotalCount := 0, ClosedIssuesTotalCount := 3, HistoryTotalCount := 10,
    StargazerCount := 7, LicenseInfoKey := "mit", PrimaryLanguageName := "Go",
    CreatedAt := "2020-01-01T00:00:00Z", LatestReleasePublishedAt := "" }

/-- A goroutine that has not found its repository missing: it has made no
record and will not make one without asking the store again. -/
def Phase.quiet : Phase → Bool
  | Phase.waiting => true
  | Phase.launched => true
  | Phase.finished => true
  | _ => false

/-- A goroutine that has left the store with a record of its repository, or
has seen one there. -/
def Phase.settled : Phase → Bool
  | Phase.created _ => true
  | Phase.finished => true
  | _ => false

/-- The first-run invariant: one phase per search result, and every goroutine
that has created its record or has ended leaves its repository in the store. -/
def SettledInStore (env : Env) (names : List String) (s : Discovery) : Prop :=
  s.phases.length = names.length ∧
  ∀ (i : Nat) (name : String) (p : Phase), names[i]? = some name → s.phases[i]? = some p → p.settled = true →
    repositoryExists s.db (bareRepository env name) = true

/-- The second-run invariant: the store is the one the run started with, no
repository is newly discovered, and no goroutine has found its repository
missing. -/
def NothingNew (db : List Repository) (s : Discovery) : Prop :=
  s.db = db ∧ s.newRepositories = [] ∧ ∀ p ∈ s.phases, p.quiet = true

/-- Two search results, and the same result returned twice. -/
def twoNames : List String := ["github.com/org/a", "github.com/org/b"]

/-- A search result sequence that repeats a name. -/
def repeatedName : List String := ["github.com/org/a", "github.com/org/a"]

/-- A schedule for two goroutines that take their steps in turn. -/
def alternating : List Nat := [0, 1, 0, 1, 0, 1, 0, 1]

/-- The record discovery creates for a search result. -/
def discovered (id : Nat) (url : String) : Repository :=
  { Repository.zero with ID := id, RepositoryName := url, RepositoryUrl := url }

/-- The final state of the discovery loop with the given store and newly
discovered list. -/
def finishedWith (db newRepositories : List Repository) : Discovery :=
  { db := db, newRepositories := newRepositories,
    phases := [Phase.finished, Phase.finished] }

/-- The invariant of discovery over distinct search results: URLs in the store
are unique, and a goroutine that found its repository missing still finds it
missing. -/
def StillMissing (env : Env) (names : List String) (s : Discovery) : Prop :=
  UniqueUrls s.db ∧
  ∀ (i : Nat) (name : String), names[i]? = some name → s.phases[i]? = some Phase.absent →
    repositoryExists s.db (bareRepository env name) = false

/-- The invariant of discovery with one slot in the semaphore: URLs in the
store are unique, the goroutine that found its repository missing still finds it
missing, and no two goroutines hold a slot. -/
def OneAtATime (env : Env) (names : List String) (s : Discovery) : Prop :=
  StillMissing env names s ∧
  ∀ (i j : Nat) (p q : Phase), s.phases[i]? = some p → s.phases[j]? = some q →
    p.active = true → q.active = true → i = j

/-- The trace `later` is the trace `earlier` followed by actions issued for
repository `k`. -/
def Appends (k : Nat) (later earlier : List Event) : Prop :=
  ∃ new, later = earlier ++ new ∧ ∀ e ∈ new, e.origin = k

/-- The store is a keyed table whose record for `url` is `entry`, a record
that already has its `OriginalCodebaseSize`. -/
def Measured (url : String) (entry : Repository) (db : List Repository) : Prop :=
  StoreOK db ∧ dbFirst db url = some entry ∧ entry.OriginalCodebaseSize ≠ ""

/-- The state in which the loop of `processRepositories` reaches index `i`. -/
def stateBefore (env : Env) (slice : List Repository) (st : State) (i : Nat) : State :=
  (processRepositoriesLoop env 0 (slice.take i) st).1

/-- A stored repository that was measured before. -/
def repoM : Repository :=
  { Repository.zero with ID := 2, RepositoryName := "m", RepositoryUrl := "github.com/org/m",
                         CommitCount := "10", OriginalCodebaseSize := "120" }

/-- A state whose store holds `repoA`, not yet measured, and `repoM`. -/
def stateAM : State := { emptyState with db := [repoA, repoM] }

/-- Every entry of the cache `c` is an entry of `c2` with the same value. -/
def CacheLe (c c2 : String → Option Int) : Prop :=
  ∀ d v, c d = some v → c2 d = some v

/-- The running total of `processLibraries` over the values `vs`, added one by
one with Go's `+`. -/
def goSum (vs : List Int) : Int := vs.foldl goAdd 0

/-- The state in which the loop of `processLibraries` reaches index `i`. -/
def libraryStateBefore (env : Env) (slice : List Repository) (st : State) (i : Nat) : State :=
  (processLibrariesLoop env 0 (slice.take i) st).1

/-- The state in which the loop of `processLibraries` leaves index `i`. -/
def libraryStateAfter (env : Env) (slice : List Repository) (st : State) (i : Nat) : State :=
  (processLibrariesLoop env 0 (slice.take (i + 1)) st).1

/-- An environment whose tools answer: every directory has 42 lines and every
manifest parses to `manifestX`. -/
def workingEnv (maxRoutines : Int) : Env :=
  { quietEnv maxRoutines with
    calculateCodeLines := fun _ _ => 42,
    parseGoMod := fun _ _ => some manifestX }

/-- The memoization invariant of `processLibraries`, relative to the cache `c0`
and the trace `t0` at entry: entries of `c0` are kept; since entry no dependency
was measured twice, none was measured that `c0` held, and every measured one is
cached; every value added to a total is the cached value of its dependency; and
every cached value is an entry of `c0` or the answer the line counter gave when
the dependency was measured. -/
def Memo (env : Env) (c0 : String → Option Int) (t0 : List Event) (st : State) : Prop :=
  CacheLe c0 st.LibraryCache ∧
  ∃ new, st.trace = t0 ++ new
    ∧ (measured new).Nodup
    ∧ (∀ d ∈ measured new, c0 d = none ∧ st.LibraryCache d ≠ none)
    ∧ (∀ e ∈ new, ∀ d v, e.action = Action.addToTotal d v → st.LibraryCache d = some v)
    ∧ (∀ d v, st.LibraryCache d = some v → c0 d = some v ∨
        ∃ before rest j,
          new = before ++ Event.mk j (Action.countLibrary d (libraryPath env d)) :: rest
          ∧ v = env.calculateCodeLines (t0 ++ before) (libraryPath env d))

/-- Two stored, measured repositories without a library size. -/
def repoP : Repository :=
  { Repository.zero with ID := 1, RepositoryName := "p", RepositoryUrl := "github.com/org/p",
                         CommitCount := "3", OriginalCodebaseSize := "10" }

/-- The second of the two repositories. -/
def repoQ : Repository :=
  { Repository.zero with ID := 2, RepositoryName := "q", RepositoryUrl := "github.com/org/q",
                         CommitCount := "5", OriginalCodebaseSize := "20" }

/-- Both repositories require libfoo, the second also libbar. -/
def dependenciesPQ : String → List String :=
  fun name =>
    if name = "p" then ["example.com/libfoo@v1.2.0"]
    else if name = "q" then ["example.com/libfoo@v1.2.0", "example.com/libbar@v0.1.0"]
    else []

/-- The state before dependency resolution of `repoP` and `repoQ`. -/
def statePQ : State :=
  { emptyState with db := [repoP, repoQ], DependencyMap := dependenciesPQ }

/-! ## The mutex of processRepositories

`goModsMutex` is taken by the worker before it parses the manifest and released
after it has stored the manifest in `GoMods`; `generateDependenciesMap` is
called after the release. The definitions below follow the worker once more and
record, next to the state, the steps that concern the mutex and the two shared
maps. -/

/-- A step of a worker that concerns `goModsMutex` or a shared map. -/
inductive SyncEvent where
  | lock
  | unlock
  | writeGoMods (url : String)
  | writeDependencyMap (name : String)
  deriving DecidableEq, Repr

/-- The state of a worker when it has released `goModsMutex`: the repository is
cloned and counted, the manifest parsed and stored in `GoMods`. -/
def workerManifestState (env : Env) (i : Nat) (repo : Repository) (st : State) : State :=
  let repositoryUrl := "https://" ++ repo.RepositoryUrl ++ ".git"
  let st1 := st.emit i (Action.gitClone repositoryUrl ("tmp" ++ "/" ++ repo.RepositoryName))
  let st2 := st1.emit i (Action.countRepository ("tmp" ++ "/" ++ repo.RepositoryName))
  let goMod := env.parseGoMod st2.trace (repo.RepositoryName ++ "/" ++ "go.mod")
  let st3 := st2.emit i (Action.parseGoMod (repo.RepositoryName ++ "/" ++ "go.mod"))
  { st3 with GoMods := mapSet st3.GoMods repo.RepositoryUrl goMod }

/-- The loop `replaceLoop` with the record of its writes to `DependencyMap`. -/
def replaceLoopSync (env : Env) (i : Nat) (repositoryName repositoryUrl : String) :
    List String → State × List SyncEvent → State × List SyncEvent
  | [], acc => acc
  | replacePath :: rest, acc =>
    if env.isLocalPath replacePath then
      let innerModFilePath := env.GetProcessDirPath ++ "/" ++ "pkg/mod" ++ "/"
        ++ repositoryUrl ++ env.trimFirstRune replacePath ++ "/" ++ "go.mod"
      let innerModuleFile := env.parseGoMod acc.1.trace innerModFilePath
      let st1 := acc.1.emit i (Action.parseGoMod innerModFilePath)
      match innerModuleFile with
      | none => replaceLoopSync env i repositoryName repositoryUrl rest (st1, acc.2)
      | some inner =>
        let merged := st1.DependencyMap repositoryName ++ inner.Require
        replaceLoopSync env i repositoryName repositoryUrl rest
          ({ st1 with DependencyMap := mapSet st1.DependencyMap repositoryName merged },
            acc.2 ++ [SyncEvent.writeDependencyMap repositoryName])
    else replaceLoopSync env i repositoryName repositoryUrl rest acc

/-- The function `generateDependenciesMap` with the record of its writes to
`DependencyMap`: the append of the requirements, the appends of the replace
loop and the deduplication. It takes no lock and releases none. -/
def generateDependenciesMapSync (env : Env) (i : Nat) (repository : Repository)
    (acc : State × List SyncEvent) : State × List SyncEvent :=
  let repositoryName := repository.RepositoryName
  let repositoryUrl := repository.RepositoryUrl
  match acc.1.GoMods repositoryUrl with
  | none => ({ acc.1 with status := some Abort.panicked }, acc.2)
  | some goMod =>
    let merged := acc.1.DependencyMap repositoryName ++ goMod.Require
    let st1 := { acc.1 with DependencyMap := mapSet acc.1.DependencyMap repositoryName merged }
    let out := replaceLoopSync env i repositoryName repositoryUrl goMod.Replace
      (st1, acc.2 ++ [SyncEvent.writeDependencyMap repositoryName])
    let unique := RemoveDuplicates (out.1.DependencyMap repositoryName)
    ({ out.1 with DependencyMap := mapSet out.1.DependencyMap repositoryName unique },
      out.2 ++ [SyncEvent.writeDependencyMap repositoryName])

/-- The worker of `processRepositories` up to the return of
`generateDependenciesMap`, with the record of its steps on the mutex and the
shared maps: `Lock`, the write to `GoMods`, `Unlock`, then the writes of
`generateDependenciesMap`. -/
def processRepositoryWorkerSync (env : Env) (i : Nat) (repo : Repository) (st : State) :
    State × List SyncEvent :=
  generateDependenciesMapSync env i repo
    (workerManifestState env i repo st,
      [SyncEvent.lock, SyncEvent.writeGoMods repo.RepositoryUrl, SyncEvent.unlock])

/-- Whether every write to `DependencyMap` in a record of steps is made while
the mutex is held, `held` telling whether it is held at the start. -/
def guardedWrites : Bool → List SyncEvent → Bool
  | _, [] => true
  | _, SyncEvent.lock :: rest => guardedWrites true rest
  | _, SyncEvent.unlock :: rest => guardedWrites false rest
  | held, SyncEvent.writeGoMods _ :: rest => guardedWrites held rest
  | held, SyncEvent.writeDependencyMap _ :: rest => held && guardedWrites held rest

/-- The requirements that the replace loop appends: those of the nested
manifests of the local replace paths that parse, in the order of the paths. The
trace is the one the loop starts with. -/
def replaceRequires (env : Env) (i : Nat) (repositoryUrl : String) :
    List String → List Event → List String
  | [], _ => []
  | replacePath :: rest, trace =>
    if env.isLocalPath replacePath then
      let innerModFilePath := env.GetProcessDirPath ++ "/" ++ "pkg/mod" ++ "/"
        ++ repositoryUrl ++ env.trimFirstRune replacePath ++ "/" ++ "go.mod"
      let trace1 := trace ++ [Event.mk i (Action.parseGoMod innerModFilePath)]
      match env.parseGoMod trace innerModFilePath with
      | none => replaceRequires env i repositoryUrl rest trace1
      | some inner => inner.Require ++ replaceRequires env i repositoryUrl rest trace1
    else replaceRequires env i repositoryUrl rest trace

/-- The test of `processRepositories` before it launches a worker: the stored
record of the repository has a name and no `OriginalCodebaseSize` yet. -/
def workerLaunched (repo : Repository) (st : State) : Prop :=
  ((dbFirst st.db repo.RepositoryUrl).getD Repository.zero).OriginalCodebaseSize = ""
    ∧ ((dbFirst st.db repo.RepositoryUrl).getD Repository.zero).RepositoryName ≠ ""

/-- Two stored repositories that are not yet measured. -/
def repoB : Repository :=
  { Repository.zero with ID := 2, RepositoryName := "b", RepositoryUrl := "github.com/org/b" }

/-- A state whose store holds `repoA` and `repoB`. -/
def stateAB : State := { emptyState with db := [repoA, repoB] }

/-! ## Lemmas on `RemoveDuplicates` -/

theorem removeDuplicatesLoop_eq (xs seen result : List String) :
    removeDuplicatesLoop xs seen result
      = result ++ (firstOccurrences xs).filter (fun y => decide (y ∉ seen)) := by
  induction xs generalizing seen result with
  | nil => simp [removeDuplicatesLoop, firstOccurrences]
  | cons x xs ih =>
    by_cases hx : x ∈ seen
    · simp only [removeDuplicatesLoop, hx, if_true, firstOccurrences, ih]
      rw [List.filter_cons_of_neg (by simpa using hx), List.filter_filter]
      congr 1
      apply List.filter_congr
      intro y _
      by_cases hy : y = x
      · subst hy; simp [hx]
      · simp [hy]
    · simp only [removeDuplicatesLoop, hx, if_false, firstOccurrences, ih]
      rw [List.filter_cons_of_pos (by simpa using hx), List.filter_filter,
        List.append_assoc, List.singleton_append]
      congr 2
      apply List.filter_congr
      intro y _
      by_cases hy : y = x
      · subst hy; simp
      · simp [hy]

theorem RemoveDuplicates_eq_firstOccurrences (xs : List String) :
    RemoveDuplicates xs = firstOccurrences xs := by
  simp [RemoveDuplicates, removeDuplicatesLoop_eq]

theorem mem_firstOccurrences (xs : List String) (a : String) :
    a ∈ firstOccurrences xs ↔ a ∈ xs := by
  induction xs with
  | nil => simp [firstOccurrences]
  | cons x xs ih =>
    simp only [firstOccurrences, List.mem_cons, List.mem_filter, ih]
    by_cases h : a = x <;> simp [h]

theorem firstOccurrences_nodup (xs : List String) : (firstOccurrences xs).Nodup := by
  induction xs with
  | nil => simp [firstOccurrences]
  | cons x xs ih =>
    simp only [firstOccurrences, List.nodup_cons]
    exact ⟨by simp [List.mem_filter], ih.filter _⟩

theorem firstOccurrences_sublist (xs : List String) :
    (firstOccurrences xs).Sublist xs := by
  induction xs with
  | nil => simp [firstOccurrences]
  | cons x xs ih =>
    simp only [firstOccurrences]
    exact ((List.filter_sublist _).trans ih).cons₂ x

/-- Filtering keeps the relative position of the elements it retains. -/
theorem indexOf_filter_lt_iff (p : String → Bool) (l : List String) (a b : String)
    (ha : p a = true) (hb : p b = true) (hal : a ∈ l) :
    ((l.filter p).indexOf a < (l.filter p).indexOf b ↔ l.indexOf a < l.indexOf b) := by
  induction l with
  | nil => simp at hal
  | cons x l ih =>
    by_cases hxa : x = a
    · subst hxa
      rw [List.filter_cons_of_pos ha]
      by_cases hxb : x = b
      · subst hxb; simp
      · simp [List.indexOf_cons_ne _ hxb]
    · have hal' : a ∈ l := by
        rcases List.mem_cons.mp hal with h | h
        · exact absurd h.symm hxa
        · exact h
      by_cases hxb : x = b
      · subst hxb
        rw [List.filter_cons_of_pos hb]
        simp [List.indexOf_cons_ne _ hxa]
      · by_cases hpx : p x = true
        · rw [List.filter_cons_of_pos hpx]
          simp only [List.indexOf_cons_ne _ hxa, List.indexOf_cons_ne _ hxb,
            Nat.succ_lt_succ_iff]
          exact ih hal'
        · rw [List.filter_cons_of_neg hpx]
          simp only [List.indexOf_cons_ne _ hxa, List.indexOf_cons_ne _ hxb,
            Nat.succ_lt_succ_iff]
          exact ih hal'

theorem firstOccurrences_indexOf (xs : List String) (a b : String) (ha : a ∈ xs) :
    ((firstOccurrences xs).indexOf a < (firstOccurrences xs).indexOf b
      ↔ xs.indexOf a < xs.indexOf b) := by
  induction xs with
  | nil => simp at ha
  | cons x xs ih =>
    simp only [firstOccurrences]
    by_cases hxa : x = a
    · subst hxa
      by_cases hxb : x = b
      · subst hxb; simp
      · simp [List.indexOf_cons_ne _ hxb]
    · have ha' : a ∈ xs := by
        rcases List.mem_cons.mp ha with h | h
        · exact absurd h.symm hxa
        · exact h
      by_cases hxb : x = b
      · subst hxb
        simp [List.indexOf_cons_ne _ hxa]
      · simp only [List.indexOf_cons_ne _ hxa, List.indexOf_cons_ne _ hxb,
          Nat.succ_lt_succ_iff]
        rw [indexOf_filter_lt_iff _ _ a b (by simpa using Ne.symm hxa)
          (by simpa using Ne.symm hxb) ((mem_firstOccurrences xs a).mpr ha')]
        exact ih ha'

/-! ## Lemmas on `CheckEmptyFields` -/

theorem checkEmptyFieldsLoop_true_iff (fs : List Value) :
    checkEmptyFieldsLoop fs false = true ↔ Value.str "" ∈ fs := by
  induction fs with
  | nil => simp [checkEmptyFieldsLoop]
  | cons f fs ih =>
    cases f with
    | str s =>
      by_cases hs : s = ""
      · subst hs; simp [checkEmptyFieldsLoop]
      · simp [checkEmptyFieldsLoop, hs, ih]
        intro h; exact absurd h.symm hs
    | int n => simp [checkEmptyFieldsLoop, ih]
    | bool b => simp [checkEmptyFieldsLoop, ih]
    | struct g => simp [checkEmptyFieldsLoop, ih]
    | ptr t => simp [checkEmptyFieldsLoop, ih]


theorem checkEmptyFieldsLoop_filter (fs : List Value) :
    checkEmptyFieldsLoop (fs.filter Value.isString) false = checkEmptyFieldsLoop fs false := by
  induction fs with
  | nil => rfl
  | cons f fs ih =>
    cases f with
    | str s =>
      by_cases hs : s = ""
      · subst hs; simp [checkEmptyFieldsLoop, Value.isString]
      · simp [checkEmptyFieldsLoop, Value.isString, hs, ih]
    | int n => simp [checkEmptyFieldsLoop, Value.isString, ih]
    | bool b => simp [checkEmptyFieldsLoop, Value.isString, ih]
    | struct g => simp [checkEmptyFieldsLoop, Value.isString, ih]
    | ptr t => simp [checkEmptyFieldsLoop, Value.isString, ih]

/-- A struct handed over by value, not through a pointer, makes `Elem` panic. -/
theorem CheckEmptyFields_by_value_panics (fields : List Value) :
    CheckEmptyFields (Value.struct fields) = Except.error Abort.panicked := rfl

/-! ## Lemmas on integers and `Itoa` -/

theorem toDigits_ne_nil (n : Nat) : Nat.toDigits 10 n ≠ [] := by
  intro h
  have hlen := congrArg List.length h
  unfold Nat.toDigits at hlen
  unfold Nat.toDigitsCore at hlen
  simp only at hlen
  split at hlen
  · simp at hlen
  · rw [Nat.toDigitsCore_lens_eq] at hlen
    simp at hlen

theorem repr_ne_empty (n : Nat) : Nat.repr n ≠ "" := by
  intro h
  have h2 := congrArg String.data h
  simp [Nat.repr, List.asString] at h2
  exact toDigits_ne_nil n h2

theorem Itoa_ne_empty (n : Int) : Itoa n ≠ "" := by
  unfold Itoa
  split
  · intro h
    have h2 := congrArg String.length h
    rw [String.length_append] at h2
    have h1 : "-".length = 1 := by decide
    rw [h1] at h2
    simp at h2
  · exact repr_ne_empty _

theorem nonZero_self (a : String) : nonZero a a = a := by
  unfold nonZero; split <;> rfl

theorem nonZero_of_ne (a b : String) (h : a ≠ "") : nonZero a b = a := by
  unfold nonZero; simp [h]

theorem nonZero_Itoa (n : Int) (b : String) : nonZero (Itoa n) b = Itoa n :=
  nonZero_of_ne _ _ (Itoa_ne_empty n)

/-! ## Lemmas on the store -/

theorem dbFirst_url {db : List Repository} {url : String} {r : Repository}
    (h : dbFirst db url = some r) : r.RepositoryUrl = url := by
  have := List.find?_some h
  simpa using this

theorem dbFirst_mem {db : List Repository} {url : String} {r : Repository}
    (h : dbFirst db url = some r) : r ∈ db :=
  List.mem_of_find?_eq_some h

theorem find_map_of_agree {α : Type} (p : α → Bool) (f : α → α) (l : List α) (a : α)
    (h : l.find? p = some a) (hp : ∀ x ∈ l, p (f x) = p x) :
    (l.map f).find? p = some (f a) := by
  induction l with
  | nil => simp at h
  | cons x l ih =>
    rw [List.map_cons, List.find?_cons]
    rw [List.find?_cons] at h
    have hx := hp x (List.mem_cons_self _ _)
    cases hpx : p x with
    | true =>
      rw [hpx] at h hx
      simp only [Option.some.injEq] at h
      rw [hx, h]
    | false =>
      rw [hpx] at h hx
      rw [hx]
      exact ih h (fun y hy => hp y (List.mem_cons_of_mem _ hy))

theorem find_map_none_of_agree {α : Type} (p : α → Bool) (f : α → α) (l : List α)
    (h : l.find? p = none) (hp : ∀ x ∈ l, p (f x) = p x) :
    (l.map f).find? p = none := by
  rw [List.find?_eq_none] at h ⊢
  intro y hy
  obtain ⟨x, hx, rfl⟩ := List.mem_map.mp hy
  rw [hp x hx]
  exact h x hx

theorem eq_of_same_ID {db : List Repository} (hok : StoreOK db) {a b : Repository}
    (ha : a ∈ db) (hb : b ∈ db) (h : a.ID = b.ID) : a = b :=
  List.inj_on_of_nodup_map hok.1 ha hb h

/-! ## Lemmas on `generateDependenciesMap` -/

theorem replaceLoop_no_local (env : Env) (i : Nat) (name url : String) (paths : List String)
    (st : State) (h : ∀ p ∈ paths, env.isLocalPath p = false) :
    replaceLoop env i name url paths st = st := by
  induction paths generalizing st with
  | nil => rfl
  | cons p rest ih =>
    have hp := h p (List.mem_cons_self _ _)
    simp only [replaceLoop, hp]
    exact ih st (fun q hq => h q (List.mem_cons_of_mem _ hq))

/-! ## Utilities: the claims on `RemoveDuplicates` and `CheckEmptyFields` -/

/-- C9: for every slice of strings, `RemoveDuplicates` returns the list that
holds each distinct element of the input exactly once, in the order of first
occurrence: the result has no repeated element, has the same elements as the
input, is a subsequence of it, and two elements stand in the result in the order
in which they first occur in the input. -/
theorem RemoveDuplicates_first_occurrence_order (slice : List String) :
    (RemoveDuplicates slice).Nodup
    ∧ (∀ x, x ∈ RemoveDuplicates slice ↔ x ∈ slice)
    ∧ (∀ x, x ∈ slice → (RemoveDuplicates slice).count x = 1)
    ∧ (RemoveDuplicates slice).Sublist slice
    ∧ (∀ x y, x ∈ slice →
        ((RemoveDuplicates slice).indexOf x < (RemoveDuplicates slice).indexOf y
          ↔ slice.indexOf x < slice.indexOf y))
    ∧ RemoveDuplicates slice = firstOccurrences slice := by
  rw [RemoveDuplicates_eq_firstOccurrences]
  refine ⟨firstOccurrences_nodup slice, mem_firstOccurrences slice, ?_,
    firstOccurrences_sublist slice, ?_, rfl⟩
  · intro x hx
    exact List.count_eq_one_of_mem (firstOccurrences_nodup slice)
      ((mem_firstOccurrences slice x).mpr hx)
  · intro x y hx
    exact firstOccurrences_indexOf slice x y hx

/-- C10: for every struct, reached through the pointer that `CheckEmptyFields`
dereferences, the call returns, and it returns true if and only if some field is
of string kind and equals the empty string; fields of other kinds do not change
the result, and a struct with no string field yields false. -/
theorem CheckEmptyFields_true_iff_empty_string_field (fields : List Value) :
    ∃ b, CheckEmptyFields (Value.ptr (some (Value.struct fields))) = Except.ok b
      ∧ (b = true ↔ ∃ f ∈ fields, f = Value.str "")
      ∧ CheckEmptyFields (Value.ptr (some (Value.struct (fields.filter Value.isString))))
          = Except.ok b
      ∧ ((∀ f ∈ fields, f.isString = false) → b = false) := by
  refine ⟨checkEmptyFieldsLoop fields false, rfl, ?_, ?_, ?_⟩
  · rw [checkEmptyFieldsLoop_true_iff]
    constructor
    · intro h; exact ⟨_, h, rfl⟩
    · rintro ⟨f, hf, rfl⟩; exact hf
  · simp only [CheckEmptyFields, Value.Elem, Value.Fields]
    rw [checkEmptyFieldsLoop_filter]
  · intro h
    cases hb : checkEmptyFieldsLoop fields false with
    | false => rfl
    | true =>
      have hmem := (checkEmptyFieldsLoop_true_iff fields).mp hb
      have := h _ hmem
      simp [Value.isString] at this

/-! ## Measurement: the claims on `generateDependenciesMap` and the worker -/

/-- C3: for every repository whose parsed manifest has require list R and no
replace directive pointing at a local path, `generateDependenciesMap` leaves
`DependencyMap[RepositoryName]` equal to `RemoveDuplicates` of the old entries
for that key followed by R, a list with no repeated identifier, and the call
does not stop the process. -/
theorem generateDependenciesMap_without_local_replace (env : Env) (i : Nat)
    (repository : Repository) (st : State) (goMod : GoMod)
    (hmod : st.GoMods repository.RepositoryUrl = some goMod)
    (hlocal : ∀ p ∈ goMod.Replace, env.isLocalPath p = false) :
    (generateDependenciesMap env i repository st).DependencyMap repository.RepositoryName
        = RemoveDuplicates (st.DependencyMap repository.RepositoryName ++ goMod.Require)
    ∧ ((generateDependenciesMap env i repository st).DependencyMap
        repository.RepositoryName).Nodup
    ∧ (generateDependenciesMap env i repository st).status = st.status := by
  have hmap : (generateDependenciesMap env i repository st).DependencyMap
      repository.RepositoryName
        = RemoveDuplicates (st.DependencyMap repository.RepositoryName ++ goMod.Require) := by
    simp [generateDependenciesMap, hmod, replaceLoop_no_local _ _ _ _ _ _ hlocal, mapSet]
  refine ⟨hmap, ?_, ?_⟩
  · rw [hmap, RemoveDuplicates_eq_firstOccurrences]
    exact firstOccurrences_nodup _
  · simp [generateDependenciesMap, hmod, replaceLoop_no_local _ _ _ _ _ _ hlocal]

/-- The scenario of C3: from an empty map, a manifest with the single
requirement example.com/x and no replace directive yields exactly that one
identifier. -/
theorem generateDependenciesMap_without_local_replace_witness :
    stateAX.GoMods repoA.RepositoryUrl = some manifestX
    ∧ (∀ p ∈ manifestX.Replace, (quietEnv 1).isLocalPath p = false)
    ∧ (generateDependenciesMap (quietEnv 1) 0 repoA stateAX).DependencyMap "a"
        = ["example.com/x"] := by
  have h := (generateDependenciesMap_without_local_replace (quietEnv 1) 0 repoA stateAX
    manifestX rfl (by intro p hp; cases hp)).1
  refine ⟨rfl, (by intro p hp; cases hp), ?_⟩
  have hname : repoA.RepositoryName = "a" := rfl
  rw [hname] at h
  rw [h]
  decide

/-- C8: the code does not keep a manifest-parse error non-fatal. For every
repository whose go.mod fails to parse, the worker stores a nil manifest,
`generateDependenciesMap` dereferences it and panics, and the worker ends
without having updated the store: after the clone, the line count and the
parse no further action is issued, the stored `OriginalCodebaseSize` is not
written and the slot of the slice is left as it was. -/
theorem processRepositoryWorker_panics_on_unparsed_manifest (env : Env) (i : Nat)
    (repo : Repository) (st : State)
    (hparse : ∀ trace, env.parseGoMod trace (repo.RepositoryName ++ "/" ++ "go.mod") = none) :
    (processRepositoryWorker env i repo st).1.status = some Abort.panicked
    ∧ (processRepositoryWorker env i repo st).1.db = st.db
    ∧ (processRepositoryWorker env i repo st).2 = repo
    ∧ (processRepositoryWorker env i repo st).1.trace = st.trace ++
        [{ origin := i, action := Action.gitClone ("https://" ++ repo.RepositoryUrl ++ ".git")
            ("tmp" ++ "/" ++ repo.RepositoryName) },
         { origin := i, action := Action.countRepository ("tmp" ++ "/" ++ repo.RepositoryName) },
         { origin := i, action := Action.parseGoMod (repo.RepositoryName ++ "/" ++ "go.mod") }] := by
  have hgen : ∀ s : State, s.GoMods repo.RepositoryUrl = none →
      generateDependenciesMap env i repo s = { s with status := some Abort.panicked } := by
    intro s hs
    simp [generateDependenciesMap, hs]
  simp only [processRepositoryWorker, hparse]
  rw [hgen _ (by simp [mapSet])]
  refine ⟨rfl, rfl, rfl, ?_⟩
  simp [State.emit]

/-- The failing input of C8: one stored repository, not yet measured, whose
manifest does not parse. The worker and with it the whole stage end in a panic,
and the stored record still has an empty `OriginalCodebaseSize`. -/
theorem processRepositoryWorker_panics_on_unparsed_manifest_witness :
    (∀ trace, (quietEnv 1).parseGoMod trace (repoA.RepositoryName ++ "/" ++ "go.mod") = none)
    ∧ (processRepositoryWorker (quietEnv 1) 0 repoA stateA).1.status = some Abort.panicked
    ∧ (processRepositoryWorker (quietEnv 1) 0 repoA stateA).1.db = [repoA]
    ∧ (processRepositories (quietEnv 1) [repoA] stateA).1.status = some Abort.panicked
    ∧ (processRepositories (quietEnv 1) [repoA] stateA).1.db = [repoA] :=
  ⟨fun _ => rfl,
   (processRepositoryWorker_panics_on_unparsed_manifest (quietEnv 1) 0 repoA stateA
      (fun _ => rfl)).1,
   (processRepositoryWorker_panics_on_unparsed_manifest (quietEnv 1) 0 repoA stateA
      (fun _ => rfl)).2.1,
   by decide, by decide⟩

/-! ## Enrichment -/

theorem mergeNonZero_enrichedRecord (cur : Repository) (name : String)
    (response : GitHubResponse) :
    (cur.mergeNonZero (enrichedRecord cur name cur.RepositoryUrl response)).ID = cur.ID
    ∧ (cur.mergeNonZero (enrichedRecord cur name cur.RepositoryUrl response)).RepositoryUrl
        = cur.RepositoryUrl
    ∧ (cur.mergeNonZero (enrichedRecord cur name cur.RepositoryUrl response)).OpenIssueCount
        = Itoa response.OpenIssuesTotalCount
    ∧ (cur.mergeNonZero (enrichedRecord cur name cur.RepositoryUrl response)).ClosedIssueCount
        = Itoa response.ClosedIssuesTotalCount
    ∧ (cur.mergeNonZero (enrichedRecord cur name cur.RepositoryUrl response)).CommitCount
        = Itoa response.HistoryTotalCount
    ∧ (cur.mergeNonZero (enrichedRecord cur name cur.RepositoryUrl response)).StargazerCount
        = Itoa response.StargazerCount
    ∧ (cur.mergeNonZero (enrichedRecord cur name cur.RepositoryUrl response)).RepositoryType
        = "primary"
    ∧ (cur.mergeNonZero (enrichedRecord cur name cur.RepositoryUrl response)).LicenseInfo
        = nonZero response.LicenseInfoKey cur.LicenseInfo := by
  simp [Repository.mergeNonZero, enrichedRecord, nonZero_Itoa, nonZero_self]
  exact nonZero_of_ne _ _ (by decide)

/-- C7: for every repository not yet enriched whose record is in the store,
and every platform response, the enrichment step hands the store a record whose
`OpenIssueCount`, `ClosedIssueCount`, `CommitCount` and `StargazerCount` are the
decimal strings of the response's counts, whose `LicenseInfo` is the response's
license key, whose `RepositoryType` is "primary" and whose `RepositoryUrl` is
kept; after the update the stored record has these values, an empty license key
leaving the stored `LicenseInfo` column as it was (empty on a record that
discovery created). -/
theorem enrichRepository_sets_fields (env : Env) (response : GitHubResponse)
    (newRepository : Repository) (db : List Repository) (cur : Repository)
    (hnot : hasBeenEnriched newRepository = false)
    (hfound : dbFirst db newRepository.RepositoryUrl = some cur)
    (hok : StoreOK db) :
    ∃ written stored db2,
      enrichRepository env response newRepository db = Except.ok db2
      ∧ db2 = dbUpdates written db
      ∧ written.ID = cur.ID
      ∧ written.RepositoryUrl = newRepository.RepositoryUrl
      ∧ written.OpenIssueCount = Itoa response.OpenIssuesTotalCount
      ∧ written.ClosedIssueCount = Itoa response.ClosedIssuesTotalCount
      ∧ written.CommitCount = Itoa response.HistoryTotalCount
      ∧ written.StargazerCount = Itoa response.StargazerCount
      ∧ written.LicenseInfo = response.LicenseInfoKey
      ∧ written.RepositoryType = "primary"
      ∧ dbFirst db2 newRepository.RepositoryUrl = some stored
      ∧ stored.ID = cur.ID
      ∧ stored.RepositoryUrl = newRepository.RepositoryUrl
      ∧ stored.OpenIssueCount = Itoa response.OpenIssuesTotalCount
      ∧ stored.ClosedIssueCount = Itoa response.ClosedIssuesTotalCount
      ∧ stored.CommitCount = Itoa response.HistoryTotalCount
      ∧ stored.StargazerCount = Itoa response.StargazerCount
      ∧ stored.RepositoryType = "primary"
      ∧ stored.LicenseInfo = nonZero response.LicenseInfoKey cur.LicenseInfo
      ∧ (cur.LicenseInfo = "" → stored.LicenseInfo = response.LicenseInfoKey) := by
  have hurl : cur.RepositoryUrl = newRepository.RepositoryUrl := dbFirst_url hfound
  have hmem : cur ∈ db := dbFirst_mem hfound
  have hid : cur.ID ≠ 0 := hok.2 cur hmem
  obtain ⟨m1, m2, m3, m4, m5, m6, m7, m8⟩ := mergeNonZero_enrichedRecord cur
    (env.ParseRepository newRepository.RepositoryUrl).2 response
  rw [hurl] at m1 m2 m3 m4 m5 m6 m7 m8
  refine ⟨enrichedRecord cur (env.ParseRepository newRepository.RepositoryUrl).2
      newRepository.RepositoryUrl response,
    cur.mergeNonZero (enrichedRecord cur (env.ParseRepository newRepository.RepositoryUrl).2
      newRepository.RepositoryUrl response), _, ?_, rfl, rfl, rfl, rfl, rfl, rfl, rfl, rfl, rfl,
    ?_, m1, m2, m3, m4, m5, m6, m7, m8, ?_⟩
  · simp [enrichRepository, hnot, hfound]
  · have hwid : (enrichedRecord cur (env.ParseRepository newRepository.RepositoryUrl).2
        newRepository.RepositoryUrl response).ID = cur.ID := rfl
    unfold dbUpdates
    rw [hwid, if_neg hid]
    have hagree : ∀ x ∈ db,
        (fun r : Repository => decide (r.RepositoryUrl = newRepository.RepositoryUrl))
          ((fun row : Repository => if row.ID = cur.ID then row.mergeNonZero (enrichedRecord cur
            (env.ParseRepository newRepository.RepositoryUrl).2 newRepository.RepositoryUrl
            response) else row) x)
        = (fun r : Repository => decide (r.RepositoryUrl = newRepository.RepositoryUrl)) x := by
      intro x hx
      by_cases hxid : x.ID = cur.ID
      · have hxc : x = cur := eq_of_same_ID hok hx hmem hxid
        subst hxc
        simp [m2, hurl]
      · simp [hxid]
    have h := find_map_of_agree _ _ db cur hfound hagree
    simpa [dbFirst] using h
  · intro hempty
    rw [m8, hempty]
    unfold nonZero
    split
    · next h => exact h.symm
    · rfl

/-- The scenario of C7: a repository with 0 open issues, 3 closed issues, 10
commits and license mit gets the four fields "0", "3", "10", "mit" and the type
"primary". -/
theorem enrichRepository_sets_fields_witness :
    hasBeenEnriched repoA = false
    ∧ dbFirst [repoA] repoA.RepositoryUrl = some repoA
    ∧ StoreOK [repoA]
    ∧ ∃ stored db2,
        enrichRepository (quietEnv 1) responseMit repoA [repoA] = Except.ok db2
        ∧ dbFirst db2 repoA.RepositoryUrl = some stored
        ∧ stored.OpenIssueCount = "0"
        ∧ stored.ClosedIssueCount = "3"
        ∧ stored.CommitCount = "10"
        ∧ stored.LicenseInfo = "mit"
        ∧ stored.RepositoryType = "primary"
        ∧ stored.RepositoryUrl = "github.com/org/a" := by
  have hok : StoreOK [repoA] := by
    unfold StoreOK
    decide
  obtain ⟨_, stored, db2, h1, _, _, _, _, _, _, _, _, _, h2, _, h3, h4, h5, h6, _, h7, h8, _⟩ :=
    enrichRepository_sets_fields (quietEnv 1) responseMit repoA [repoA] repoA
      (by decide) (by decide) hok
  exact ⟨by decide, by decide, hok, stored, db2, h1, h2, h4, h5, h6, h8, h7, h3⟩

/-! ## Discovery -/

/-- The five moves a goroutine of the discovery loop can make. -/
theorem discoveryStep_cases {env : Env} {names : List String} {i : Nat} {s s2 : Discovery}
    (h : discoveryStep env names i s = some s2) :
    ∃ name, names[i]? = some name ∧
      ((s.phases[i]? = some Phase.waiting
          ∧ (s.phases.take i).all (fun p => decide (p ≠ Phase.waiting)) = true
          ∧ ((s.phases.filter Phase.active).length : Int) < env.MaxRoutines
          ∧ s2 = { s with phases := s.phases.set i Phase.launched })
      ∨ (s.phases[i]? = some Phase.launched
          ∧ repositoryExists s.db (bareRepository env name) = true
          ∧ s2 = { s with phases := s.phases.set i Phase.finished })
      ∨ (s.phases[i]? = some Phase.launched
          ∧ repositoryExists s.db (bareRepository env name) = false
          ∧ s2 = { s with phases := s.phases.set i Phase.absent })
      ∨ (s.phases[i]? = some Phase.absent
          ∧ s2 = { s with db := (dbCreate (bareRepository env name) s.db).1,
                          phases := s.phases.set i
                            (Phase.created (dbCreate (bareRepository env name) s.db).2) })
      ∨ (∃ r, s.phases[i]? = some (Phase.created r)
          ∧ s2 = { s with newRepositories := s.newRepositories ++ [r],
                          phases := s.phases.set i Phase.finished })) := by
  unfold discoveryStep at h
  split at h
  · next name hn hp =>
    split at h
    · next hg =>
      simp only [Option.some.injEq] at h
      exact ⟨name, hn, Or.inl ⟨hp, hg.1, hg.2, h.symm⟩⟩
    · simp at h
  · next name hn hp =>
    split at h
    · next hex =>
      simp only [Option.some.injEq] at h
      exact ⟨name, hn, Or.inr (Or.inl ⟨hp, hex, h.symm⟩)⟩
    · next hex =>
      simp only [Option.some.injEq] at h
      exact ⟨name, hn, Or.inr (Or.inr (Or.inl ⟨hp, by simpa using hex, h.symm⟩))⟩
  · next name hn hp =>
    simp only [Option.some.injEq] at h
    exact ⟨name, hn, Or.inr (Or.inr (Or.inr (Or.inl ⟨hp, h.symm⟩)))⟩
  · next name r hn hp =>
    simp only [Option.some.injEq] at h
    exact ⟨name, hn, Or.inr (Or.inr (Or.inr (Or.inr ⟨r, hp, h.symm⟩)))⟩
  · simp at h

/-- A property that every step keeps holds along every schedule. -/
theorem runDiscovery_invariant (env : Env) (names : List String) (P : Discovery → Prop)
    (hstep : ∀ i s s2, P s → discoveryStep env names i s = some s2 → P s2)
    (schedule : List Nat) (s s2 : Discovery) (hs : P s)
    (hrun : runDiscovery env names schedule s = some s2) : P s2 := by
  induction schedule generalizing s with
  | nil =>
    simp only [runDiscovery, Option.some.injEq] at hrun
    exact hrun ▸ hs
  | cons i rest ih =>
    simp only [runDiscovery] at hrun
    split at hrun
    · simp at hrun
    · next s1 h1 => exact ih s1 (hstep i s s1 hs h1) hrun

theorem repositoryExists_iff (db : List Repository) (r : Repository) :
    repositoryExists db r = true ↔ ∃ x ∈ db, x.RepositoryUrl = r.RepositoryUrl := by
  simp [repositoryExists, dbFirst, List.find?_isSome]

theorem repositoryExists_append (db more : List Repository) (r : Repository)
    (h : repositoryExists db r = true) : repositoryExists (db ++ more) r = true := by
  rw [repositoryExists_iff] at h ⊢
  obtain ⟨x, hx, hu⟩ := h
  exact ⟨x, List.mem_append_left _ hx, hu⟩

theorem repositoryExists_dbCreate (db : List Repository) (r : Repository) :
    repositoryExists (dbCreate r db).1 r = true := by
  rw [repositoryExists_iff]
  exact ⟨{ r with ID := dbNextID db }, by simp [dbCreate], rfl⟩

theorem bareRepository_url (env : Env) (name : String) :
    (bareRepository env name).RepositoryUrl = name := rfl

theorem SettledInStore_init (env : Env) (names : List String) (db : List Repository) :
    SettledInStore env names (Discovery.init db names) := by
  refine ⟨by simp [Discovery.init], ?_⟩
  intro i name p _ hp hset
  simp only [Discovery.init, List.getElem?_map] at hp
  cases hn : names[i]? with
  | none => simp [hn] at hp
  | some n =>
    simp only [hn, Option.map_some', Option.some.injEq] at hp
    subst hp
    simp [Phase.settled] at hset

theorem SettledInStore_step (env : Env) (names : List String) (i : Nat) (s s2 : Discovery)
    (hs : SettledInStore env names s) (h : discoveryStep env names i s = some s2) :
    SettledInStore env names s2 := by
  obtain ⟨hlen, hinv⟩ := hs
  obtain ⟨name, hn, hcase⟩ := discoveryStep_cases h
  -- the phase written at `i` and the store after the step
  have key : ∀ (q : Phase) (db2 : List Repository) (nr : List Repository),
      (∀ r, repositoryExists s.db r = true → repositoryExists db2 r = true) →
      (q.settled = true → repositoryExists db2 (bareRepository env name) = true) →
      SettledInStore env names
        { db := db2, newRepositories := nr, phases := s.phases.set i q } := by
    intro q db2 nr hmono hq
    refine ⟨by simp [hlen], ?_⟩
    intro j nm p hnm hp hset
    simp only [List.getElem?_set] at hp
    by_cases hij : i = j
    · subst hij
      rw [if_pos rfl] at hp
      split at hp
      · simp only [Option.some.injEq] at hp
        subst hp
        rw [hn] at hnm
        simp only [Option.some.injEq] at hnm
        subst hnm
        exact hq hset
      · simp at hp
    · rw [if_neg hij] at hp
      exact hmono _ (hinv j nm p hnm hp hset)
  rcases hcase with ⟨_, _, _, rfl⟩ | ⟨_, hex, rfl⟩ | ⟨_, _, rfl⟩ | ⟨_, rfl⟩ | ⟨r, hp, rfl⟩
  · exact key _ _ _ (fun _ hr => hr) (by simp [Phase.settled])
  · exact key _ _ _ (fun _ hr => hr) (fun _ => hex)
  · exact key _ _ _ (fun _ hr => hr) (by simp [Phase.settled])
  · exact key _ _ _ (fun r hr => repositoryExists_append _ _ r hr)
      (fun _ => repositoryExists_dbCreate _ _)
  · exact key _ _ _ (fun _ hr => hr) (fun _ => hinv i name _ hn hp rfl)

theorem NothingNew_step (env : Env) (names : List String) (db : List Repository)
    (hknown : ∀ name ∈ names, repositoryExists db (bareRepository env name) = true)
    (i : Nat) (s s2 : Discovery) (hs : NothingNew db s)
    (h : discoveryStep env names i s = some s2) : NothingNew db s2 := by
  obtain ⟨hdb, hnew, hq⟩ := hs
  obtain ⟨name, hn, hcase⟩ := discoveryStep_cases h
  have hmem : name ∈ names := List.mem_iff_getElem?.mpr ⟨i, hn⟩
  have hset : ∀ q : Phase, q.quiet = true → ∀ p ∈ s.phases.set i q, p.quiet = true := by
    intro q hqq p hp
    rcases List.mem_or_eq_of_mem_set hp with hp | hp
    · exact hq p hp
    · exact hp ▸ hqq
  have hphase : ∀ p, s.phases[i]? = some p → p.quiet = true := by
    intro p hp
    exact hq p (List.mem_iff_getElem?.mpr ⟨i, hp⟩)
  rcases hcase with ⟨_, _, _, rfl⟩ | ⟨_, _, rfl⟩ | ⟨_, hex, rfl⟩ | ⟨hp, rfl⟩ | ⟨r, hp, rfl⟩
  · exact ⟨hdb, hnew, hset _ rfl⟩
  · exact ⟨hdb, hnew, hset _ rfl⟩
  · rw [hdb, hknown name hmem] at hex
    simp at hex
  · have := hphase _ hp
    simp [Phase.quiet] at this
  · have := hphase _ hp
    simp [Phase.quiet] at this

/-- C5: discovery is idempotent. For every search result sequence, every
store and every scheduling of the goroutines: when a first run of the discovery
loop has ended, a second run with the same search results against the store the
first run left creates no record and discovers no repository, at any point of
any schedule. -/
theorem discovery_second_run_finds_nothing (env : Env) (names : List String)
    (db : List Repository) (schedule1 schedule2 : List Nat) (s1 s2 : Discovery)
    (hrun1 : runDiscovery env names schedule1 (Discovery.init db names) = some s1)
    (hdone : s1.done = true)
    (hrun2 : runDiscovery env names schedule2 (Discovery.init s1.db names) = some s2) :
    s2.db = s1.db ∧ s2.newRepositories = [] := by
  have hinv1 : SettledInStore env names s1 :=
    runDiscovery_invariant env names (SettledInStore env names)
      (fun i s s2 hs h => SettledInStore_step env names i s s2 hs h)
      schedule1 _ s1 (SettledInStore_init env names db) hrun1
  have hknown : ∀ name ∈ names, repositoryExists s1.db (bareRepository env name) = true := by
    intro name hname
    obtain ⟨i, hi⟩ := List.mem_iff_getElem?.mp hname
    have hlt : i < names.length := (List.getElem?_eq_some.mp hi).1
    have hlt2 : i < s1.phases.length := hinv1.1 ▸ hlt
    have hp : s1.phases[i]? = some s1.phases[i] := List.getElem?_eq_getElem hlt2
    have hfin : s1.phases[i] = Phase.finished := by
      have hall := List.all_eq_true.mp hdone s1.phases[i] (List.getElem_mem hlt2)
      simpa using hall
    exact hinv1.2 i name _ hi hp (by rw [hfin]; rfl)
  have hinit : NothingNew s1.db (Discovery.init s1.db names) := by
    refine ⟨rfl, rfl, ?_⟩
    intro p hp
    simp only [Discovery.init, List.mem_map] at hp
    obtain ⟨_, _, rfl⟩ := hp
    rfl
  have hinv2 : NothingNew s1.db s2 :=
    runDiscovery_invariant env names (NothingNew s1.db)
      (fun i s s2 hs h => NothingNew_step env names s1.db hknown i s s2 hs h)
      schedule2 _ s2 hinit hrun2
  exact ⟨hinv2.1, hinv2.2.1⟩

/-- A first run over two search results creates two records; the second run
ends with the same store and an empty list. -/
theorem discovery_second_run_finds_nothing_witness :
    runDiscovery (quietEnv 2) twoNames alternating (Discovery.init [] twoNames)
      = some (finishedWith
          [discovered 1 "github.com/org/a", discovered 2 "github.com/org/b"]
          [discovered 1 "github.com/org/a", discovered 2 "github.com/org/b"])
    ∧ runDiscovery (quietEnv 2) twoNames [0, 1, 0, 1]
        (Discovery.init [discovered 1 "github.com/org/a", discovered 2 "github.com/org/b"]
          twoNames)
      = some (finishedWith
          [discovered 1 "github.com/org/a", discovered 2 "github.com/org/b"] [])
    ∧ (finishedWith [discovered 1 "github.com/org/a", discovered 2 "github.com/org/b"] []).db
        = [discovered 1 "github.com/org/a", discovered 2 "github.com/org/b"]
    ∧ (finishedWith
        [discovered 1 "github.com/org/a", discovered 2 "github.com/org/b"] []).newRepositories
        = [] := by
  have h1 : runDiscovery (quietEnv 2) twoNames alternating (Discovery.init [] twoNames)
      = some (finishedWith
          [discovered 1 "github.com/org/a", discovered 2 "github.com/org/b"]
          [discovered 1 "github.com/org/a", discovered 2 "github.com/org/b"]) := by decide
  have h2 : runDiscovery (quietEnv 2) twoNames [0, 1, 0, 1]
        (Discovery.init [discovered 1 "github.com/org/a", discovered 2 "github.com/org/b"]
          twoNames)
      = some (finishedWith
          [discovered 1 "github.com/org/a", discovered 2 "github.com/org/b"] []) := by decide
  have h := discovery_second_run_finds_nothing (quietEnv 2) twoNames [] alternating [0, 1, 0, 1]
    _ _ h1 (by decide) h2
  exact ⟨h1, h2, h.1, h.2⟩

/-- C4: the discovery loop does not keep URLs unique when the search result
repeats a name and two goroutines run at once. With `MaxRoutines = 2`, an empty
store and the same name returned twice, both goroutines ask the store before
either has created its record, both find the repository missing and both create
it: the loop ends with two records of one `RepositoryUrl`. -/
theorem discovery_race_creates_duplicate :
    UniqueUrls []
    ∧ runDiscovery (quietEnv 2) repeatedName alternating (Discovery.init [] repeatedName)
      = some (finishedWith
          [discovered 1 "github.com/org/a", discovered 2 "github.com/org/a"]
          [discovered 1 "github.com/org/a", discovered 2 "github.com/org/a"])
    ∧ (finishedWith
          [discovered 1 "github.com/org/a", discovered 2 "github.com/org/a"]
          [discovered 1 "github.com/org/a", discovered 2 "github.com/org/a"]).done = true
    ∧ ¬ UniqueUrls (finishedWith
          [discovered 1 "github.com/org/a", discovered 2 "github.com/org/a"]
          [discovered 1 "github.com/org/a", discovered 2 "github.com/org/a"]).db := by
  refine ⟨?_, by decide, by decide, ?_⟩
  · unfold UniqueUrls; decide
  · unfold UniqueUrls; decide

/-! ## Discovery over distinct search results -/

theorem nodup_getElem?_inj {l : List String} (h : l.Nodup) {i j : Nat} {a : String}
    (hi : l[i]? = some a) (hj : l[j]? = some a) : i = j := by
  have hil : i < l.length := (List.getElem?_eq_some.mp hi).1
  have hjl : j < l.length := (List.getElem?_eq_some.mp hj).1
  rcases Nat.lt_trichotomy i j with hlt | heq | hgt
  · exact absurd (hi.trans hj.symm) (List.nodup_iff_getElem?_ne_getElem?.mp h i j hlt hjl)
  · exact heq
  · exact absurd (hj.trans hi.symm) (List.nodup_iff_getElem?_ne_getElem?.mp h j i hgt hil)

theorem repositoryExists_eq_false_iff (db : List Repository) (r : Repository) :
    repositoryExists db r = false ↔ ∀ x ∈ db, x.RepositoryUrl ≠ r.RepositoryUrl := by
  rw [← Bool.not_eq_true, repositoryExists_iff]
  constructor
  · intro h x hx hu; exact h ⟨x, hx, hu⟩
  · rintro h ⟨x, hx, hu⟩; exact h x hx hu

theorem UniqueUrls_dbCreate (db : List Repository) (r : Repository) (h : UniqueUrls db)
    (hnew : repositoryExists db r = false) : UniqueUrls (dbCreate r db).1 := by
  rw [repositoryExists_eq_false_iff] at hnew
  unfold UniqueUrls at h ⊢
  simp only [dbCreate, List.map_append, List.map_cons, List.map_nil]
  rw [List.nodup_append]
  refine ⟨h, List.nodup_singleton _, ?_⟩
  intro u hu hu2
  simp only [List.mem_singleton] at hu2
  obtain ⟨x, hx, hxu⟩ := List.mem_map.mp hu
  exact hnew x hx (hxu.trans hu2)

theorem StillMissing_step (env : Env) (names : List String) (hnames : names.Nodup)
    (i : Nat) (s s2 : Discovery) (hs : StillMissing env names s)
    (h : discoveryStep env names i s = some s2) : StillMissing env names s2 := by
  obtain ⟨huniq, hmiss⟩ := hs
  obtain ⟨name, hn, hcase⟩ := discoveryStep_cases h
  have key : ∀ (q : Phase) (db2 nr : List Repository), UniqueUrls db2 →
      (q = Phase.absent → repositoryExists db2 (bareRepository env name) = false) →
      (∀ nm, nm ≠ name → repositoryExists s.db (bareRepository env nm) = false →
        repositoryExists db2 (bareRepository env nm) = false) →
      StillMissing env names
        { db := db2, newRepositories := nr, phases := s.phases.set i q } := by
    intro q db2 nr hu hq hother
    refine ⟨hu, ?_⟩
    intro j nm hnm hp
    simp only [List.getElem?_set] at hp
    by_cases hij : i = j
    · subst hij
      rw [if_pos rfl] at hp
      split at hp
      · simp only [Option.some.injEq] at hp
        rw [hn] at hnm
        simp only [Option.some.injEq] at hnm
        subst hnm
        exact hq hp
      · simp at hp
    · rw [if_neg hij] at hp
      have hne : nm ≠ name := by
        intro heq
        subst heq
        exact hij (nodup_getElem?_inj hnames hn hnm)
      exact hother nm hne (hmiss j nm hnm hp)
  rcases hcase with ⟨_, _, _, rfl⟩ | ⟨_, _, rfl⟩ | ⟨_, hex, rfl⟩ | ⟨hp, rfl⟩ | ⟨r, _, rfl⟩
  · exact key _ _ _ huniq (by simp) (fun _ _ hr => hr)
  · exact key _ _ _ huniq (by simp) (fun _ _ hr => hr)
  · exact key _ _ _ huniq (fun _ => hex) (fun _ _ hr => hr)
  · refine key _ _ _ (UniqueUrls_dbCreate _ _ huniq (hmiss i name hn hp)) (by simp) ?_
    intro nm hne hr
    rw [repositoryExists_eq_false_iff] at hr ⊢
    intro x hx
    simp only [dbCreate, List.mem_append, List.mem_singleton] at hx
    rcases hx with hx | hx
    · exact hr x hx
    · subst hx
      exact fun hu => hne hu.symm
  · exact key _ _ _ huniq (by simp) (fun _ _ hr => hr)

/-- Over pairwise distinct search results the discovery loop keeps URLs unique,
whatever the number of goroutines and the schedule. -/
theorem discovery_distinct_names_unique_urls (env : Env) (names : List String)
    (db : List Repository) (schedule : List Nat) (s : Discovery)
    (hnames : names.Nodup) (hdb : UniqueUrls db)
    (hrun : runDiscovery env names schedule (Discovery.init db names) = some s) :
    UniqueUrls s.db := by
  have hinit : StillMissing env names (Discovery.init db names) := by
    refine ⟨hdb, ?_⟩
    intro i name _ hp
    simp only [Discovery.init, List.getElem?_map] at hp
    cases hn : names[i]? with
    | none => simp [hn] at hp
    | some n => simp [hn] at hp
  exact (runDiscovery_invariant env names (StillMissing env names)
    (fun i s s2 hs h => StillMissing_step env names hnames i s s2 hs h)
    schedule _ s hinit hrun).1

/-! ## Discovery with a single slot -/

theorem OneAtATime_step (env : Env) (names : List String) (hmax : env.MaxRoutines ≤ 1)
    (i : Nat) (s s2 : Discovery) (hs : OneAtATime env names s)
    (h : discoveryStep env names i s = some s2) : OneAtATime env names s2 := by
  obtain ⟨⟨huniq, hmiss⟩, hone⟩ := hs
  obtain ⟨name, hn, hcase⟩ := discoveryStep_cases h
  -- a step of goroutine `i` whose other goroutines are all idle
  have key : ∀ (q : Phase) (db2 nr : List Repository), UniqueUrls db2 →
      (q = Phase.absent → repositoryExists db2 (bareRepository env name) = false) →
      (∀ (j : Nat) (p : Phase), j ≠ i → s.phases[j]? = some p → p.active = false) →
      OneAtATime env names
        { db := db2, newRepositories := nr, phases := s.phases.set i q } := by
    intro q db2 nr hu hq hidle
    refine ⟨⟨hu, ?_⟩, ?_⟩
    · intro j nm hnm hp
      simp only [List.getElem?_set] at hp
      by_cases hij : i = j
      · subst hij
        rw [if_pos rfl] at hp
        split at hp
        · simp only [Option.some.injEq] at hp
          rw [hn] at hnm
          simp only [Option.some.injEq] at hnm
          subst hnm
          exact hq hp
        · simp at hp
      · rw [if_neg hij] at hp
        have := hidle j _ (Ne.symm hij) hp
        simp [Phase.active] at this
    · intro j k p r hj hk hpa hra
      simp only [List.getElem?_set] at hj hk
      by_cases hij : i = j
      · by_cases hik : i = k
        · exact hij.symm.trans hik
        · rw [if_neg hik] at hk
          rw [hidle k r (Ne.symm hik) hk] at hra
          simp at hra
      · rw [if_neg hij] at hj
        rw [hidle j p (Ne.symm hij) hj] at hpa
        simp at hpa
  -- when goroutine `i` holds the slot, every other goroutine is idle
  have idle_of_active : ∀ p0 : Phase, s.phases[i]? = some p0 → p0.active = true →
      ∀ (j : Nat) (p : Phase), j ≠ i → s.phases[j]? = some p → p.active = false := by
    intro p0 hp0 ha j p hji hp
    cases hpa : p.active with
    | false => rfl
    | true => exact absurd (hone j i p p0 hp hp0 hpa ha) hji
  rcases hcase with ⟨_, _, hcount, rfl⟩ | ⟨hp, _, rfl⟩ | ⟨hp, hex, rfl⟩ | ⟨hp, rfl⟩ | ⟨r, hp, rfl⟩
  · refine key _ _ _ huniq (by simp) ?_
    intro j p _ hp
    have hzero : (s.phases.filter Phase.active).length = 0 := by omega
    have hnil := List.length_eq_zero.mp hzero
    have hmem : p ∈ s.phases := List.mem_iff_getElem?.mpr ⟨j, hp⟩
    have := (List.filter_eq_nil_iff.mp hnil) p hmem
    simpa using this
  · exact key _ _ _ huniq (by simp) (idle_of_active _ hp rfl)
  · exact key _ _ _ huniq (fun _ => hex) (idle_of_active _ hp rfl)
  · exact key _ _ _ (UniqueUrls_dbCreate _ _ huniq (hmiss i name hn hp)) (by simp)
      (idle_of_active _ hp rfl)
  · exact key _ _ _ huniq (by simp) (idle_of_active _ hp rfl)

/-- With a single slot in the semaphore the goroutines run one after the other
and the discovery loop keeps URLs unique, also when the search result repeats a
name. -/
theorem discovery_single_slot_unique_urls (env : Env) (names : List String)
    (db : List Repository) (schedule : List Nat) (s : Discovery)
    (hmax : env.MaxRoutines ≤ 1) (hdb : UniqueUrls db)
    (hrun : runDiscovery env names schedule (Discovery.init db names) = some s) :
    UniqueUrls s.db := by
  have hwait : ∀ (i : Nat) (p : Phase),
      (Discovery.init db names).phases[i]? = some p → p = Phase.waiting := by
    intro i p hp
    simp only [Discovery.init, List.getElem?_map] at hp
    cases hn : names[i]? with
    | none => simp [hn] at hp
    | some n => simpa [hn] using hp.symm
  have hinit : OneAtATime env names (Discovery.init db names) := by
    refine ⟨⟨hdb, ?_⟩, ?_⟩
    · intro i name _ hp
      have := hwait i _ hp
      simp at this
    · intro i j p q hp _ hpa _
      rw [hwait i p hp] at hpa
      simp [Phase.active] at hpa
  exact (runDiscovery_invariant env names (OneAtATime env names)
    (fun i s s2 hs h => OneAtATime_step env names hmax i s s2 hs h)
    schedule _ s hinit hrun).1.1

/-! ## The store under `Updates` -/

theorem mergeNonZero_ID (row r : Repository) : (row.mergeNonZero r).ID = row.ID := rfl

/-- An update through a struct that was read from the store and kept its URL
leaves every lookup by URL at the same row, updated or not. -/
theorem dbFirst_dbUpdates (db : List Repository) (hok : StoreOK db) (found rs : Repository)
    (hmem : found ∈ db) (hid : rs.ID = found.ID)
    (hurl : rs.RepositoryUrl = found.RepositoryUrl) (u : String) :
    dbFirst (dbUpdates rs db) u
      = (dbFirst db u).map (fun row => if row.ID = rs.ID then row.mergeNonZero rs else row) := by
  have hne : rs.ID ≠ 0 := hid ▸ hok.2 found hmem
  unfold dbUpdates
  rw [if_neg hne]
  have hagree : ∀ x ∈ db,
      (fun r : Repository => decide (r.RepositoryUrl = u))
        ((fun row : Repository => if row.ID = rs.ID then row.mergeNonZero rs else row) x)
      = (fun r : Repository => decide (r.RepositoryUrl = u)) x := by
    intro x hx
    by_cases hxid : x.ID = rs.ID
    · have hxf : x = found := eq_of_same_ID hok hx hmem (hxid.trans hid)
      subst hxf
      simp [hxid, Repository.mergeNonZero, hurl, nonZero_self]
    · simp [hxid]
  unfold dbFirst
  cases hfind : db.find? (fun r => decide (r.RepositoryUrl = u)) with
  | none =>
    rw [find_map_none_of_agree _ _ db hfind hagree]
    rfl
  | some a =>
    rw [find_map_of_agree _ _ db a hfind hagree]
    rfl

theorem StoreOK_dbUpdates (db : List Repository) (hok : StoreOK db) (rs : Repository) :
    StoreOK (dbUpdates rs db) := by
  unfold dbUpdates
  split
  · exact hok
  · constructor
    · have hmap : (db.map (fun row => if row.ID = rs.ID then row.mergeNonZero rs else row)).map
          (fun r => r.ID) = db.map (fun r => r.ID) := by
        rw [List.map_map]
        apply List.map_congr_left
        intro x _
        simp only [Function.comp]
        split <;> rfl
      rw [hmap]
      exact hok.1
    · intro r hr
      obtain ⟨x, hx, rfl⟩ := List.mem_map.mp hr
      have := hok.2 x hx
      split <;> simpa [mergeNonZero_ID] using this

/-- Writing back a row with only `OriginalCodebaseSize` filled in changes that
column and nothing else. -/
theorem mergeNonZero_size (found : Repository) (x : String) (hx : x ≠ "") :
    found.mergeNonZero { found with OriginalCodebaseSize := x }
      = { found with OriginalCodebaseSize := x } := by
  simp [Repository.mergeNonZero, nonZero_self, nonZero_of_ne _ _ hx]

/-- Writing back a row with only `LibraryCodebaseSize` filled in changes that
column and nothing else. -/
theorem mergeNonZero_library (found : Repository) (x : String) (hx : x ≠ "") :
    found.mergeNonZero { found with LibraryCodebaseSize := x }
      = { found with LibraryCodebaseSize := x } := by
  simp [Repository.mergeNonZero, nonZero_self, nonZero_of_ne _ _ hx]

/-! ## Frame lemmas for the measurement stage -/

theorem Appends_refl (k : Nat) (t : List Event) : Appends k t t :=
  ⟨[], by simp, by simp⟩

theorem Appends_trans {k : Nat} {c b a : List Event} (h1 : Appends k c b)
    (h2 : Appends k b a) : Appends k c a := by
  obtain ⟨n1, e1, o1⟩ := h1
  obtain ⟨n2, e2, o2⟩ := h2
  refine ⟨n2 ++ n1, by rw [e1, e2, List.append_assoc], ?_⟩
  intro e he
  rcases List.mem_append.mp he with he | he
  · exact o2 e he
  · exact o1 e he

theorem Appends_emit (k : Nat) (s : State) (a : Action) :
    Appends k (s.emit k a).trace s.trace := by
  refine ⟨[{ origin := k, action := a }], rfl, ?_⟩
  intro e he
  simp only [List.mem_singleton] at he
  rw [he]

theorem replaceLoop_frame (env : Env) (k : Nat) (name url : String) (paths : List String)
    (st : State) :
    (replaceLoop env k name url paths st).db = st.db
    ∧ (replaceLoop env k name url paths st).GoMods = st.GoMods
    ∧ (replaceLoop env k name url paths st).status = st.status
    ∧ Appends k (replaceLoop env k name url paths st).trace st.trace := by
  induction paths generalizing st with
  | nil => exact ⟨rfl, rfl, rfl, Appends_refl k _⟩
  | cons p rest ih =>
    simp only [replaceLoop]
    split
    · split
      · refine ⟨(ih _).1, (ih _).2.1, (ih _).2.2.1, ?_⟩
        exact Appends_trans (ih _).2.2.2 (Appends_emit k st _)
      · refine ⟨(ih _).1, (ih _).2.1, (ih _).2.2.1, ?_⟩
        exact Appends_trans (ih _).2.2.2 (Appends_emit k st _)
    · exact ih st

theorem generateDependenciesMap_frame (env : Env) (k : Nat) (repo : Repository) (st : State) :
    (generateDependenciesMap env k repo st).db = st.db
    ∧ (generateDependenciesMap env k repo st).GoMods = st.GoMods
    ∧ Appends k (generateDependenciesMap env k repo st).trace st.trace := by
  unfold generateDependenciesMap
  simp only
  split
  · exact ⟨rfl, rfl, Appends_refl k _⟩
  · exact ⟨(replaceLoop_frame env k _ _ _ _).1, (replaceLoop_frame env k _ _ _ _).2.1,
      (replaceLoop_frame env k _ _ _ _).2.2.2⟩

/-- What one measurement worker does to the shared state: its actions carry its
index, it writes `GoMods` under its own URL only, and it touches the store, if
at all, by writing the size back into the row it read. -/
theorem processRepositoryWorker_frame (env : Env) (k : Nat) (repo : Repository) (st : State) :
    Appends k (processRepositoryWorker env k repo st).1.trace st.trace
    ∧ (∀ u, u ≠ repo.RepositoryUrl →
        (processRepositoryWorker env k repo st).1.GoMods u = st.GoMods u)
    ∧ ((processRepositoryWorker env k repo st).1.db = st.db
        ∨ ∃ found x, dbFirst st.db repo.RepositoryUrl = some found ∧ x ≠ ""
            ∧ (processRepositoryWorker env k repo st).1.db
                = dbUpdates { found with OriginalCodebaseSize := x } st.db) := by
  have hgomods : ∀ u, u ≠ repo.RepositoryUrl → ∀ v : Option GoMod,
      mapSet st.GoMods repo.RepositoryUrl v u = st.GoMods u := by
    intro u hu v
    simp [mapSet, hu]
  have hpre : ∀ (a b c : Action),
      Appends k (((st.emit k a).emit k b).emit k c).trace st.trace :=
    fun a b c => Appends_trans (Appends_emit k _ c)
      (Appends_trans (Appends_emit k _ b) (Appends_emit k st a))
  unfold processRepositoryWorker
  simp only
  split
  · refine ⟨Appends_trans (generateDependenciesMap_frame env k repo _).2.2 (hpre _ _ _), ?_,
      Or.inl (generateDependenciesMap_frame env k repo _).1⟩
    intro u hu
    rw [(generateDependenciesMap_frame env k repo _).2.1]
    exact hgomods u hu _
  · split
    · refine ⟨Appends_trans (generateDependenciesMap_frame env k repo _).2.2 (hpre _ _ _), ?_,
        Or.inl (generateDependenciesMap_frame env k repo _).1⟩
      intro u hu
      simp only
      rw [(generateDependenciesMap_frame env k repo _).2.1]
      exact hgomods u hu _
    · next found hfound =>
      rw [(generateDependenciesMap_frame env k repo _).1] at hfound
      refine ⟨Appends_trans (Appends_emit k _ _)
          (Appends_trans (generateDependenciesMap_frame env k repo _).2.2 (hpre _ _ _)),
        ?_, ?_⟩
      · intro u hu
        simp only [State.emit]
        rw [(generateDependenciesMap_frame env k repo _).2.1]
        exact hgomods u hu _
      · right
        refine ⟨found, ?_⟩
        apply Exists.intro
        refine ⟨hfound, ?_, ?_⟩
        rotate_left
        · simp only [State.emit]
          rw [(generateDependenciesMap_frame env k repo _).1]
        · exact Itoa_ne_empty _

theorem Measured_dbUpdates (u : String) (entry : Repository) (db : List Repository)
    (h : Measured u entry db) (found : Repository) (v x : String)
    (hfound : dbFirst db v = some found) (hv : v ≠ u) :
    Measured u entry (dbUpdates { found with OriginalCodebaseSize := x } db) := by
  obtain ⟨hok, hfirst, hsize⟩ := h
  refine ⟨StoreOK_dbUpdates db hok _, ?_, hsize⟩
  rw [dbFirst_dbUpdates db hok found { found with OriginalCodebaseSize := x }
    (dbFirst_mem hfound) rfl rfl u, hfirst]
  simp only [Option.map_some', Option.some.injEq]
  rw [if_neg]
  intro hid
  have heq : entry = found := eq_of_same_ID hok (dbFirst_mem hfirst) (dbFirst_mem hfound) hid
  have h1 := dbFirst_url hfirst
  have h2 := dbFirst_url hfound
  rw [heq] at h1
  exact hv (h2.symm.trans h1)

/-- One pass of the loop of `processRepositories` against a measured record:
the record stays, `GoMods` under its URL stays, the actions of the pass carry
its index, and the pass for a repository of that URL only prunes. -/
theorem processRepositoriesIter_frame (env : Env) (k : Nat) (repo : Repository) (s : State)
    (u : String) (entry : Repository) (h : Measured u entry s.db) :
    Measured u entry (processRepositoriesIter env k repo s).1.db
    ∧ (processRepositoriesIter env k repo s).1.GoMods u = s.GoMods u
    ∧ (∃ new, (processRepositoriesIter env k repo s).1.trace = s.trace ++ new
        ∧ ∀ e ∈ new, e.origin = k ∧ (repo.RepositoryUrl = u → e.action = Action.prune))
    ∧ (repo.RepositoryUrl = u →
        processRepositoriesIter env k repo s = (s.emit k Action.prune, repo)) := by
  have hskip : ∀ r : Repository,
      Measured u entry (s.emit k Action.prune, r).1.db
      ∧ (s.emit k Action.prune, r).1.GoMods u = s.GoMods u
      ∧ (∃ new, (s.emit k Action.prune, r).1.trace = s.trace ++ new
          ∧ ∀ e ∈ new, e.origin = k ∧ (repo.RepositoryUrl = u → e.action = Action.prune)) := by
    intro r
    refine ⟨h, rfl, [{ origin := k, action := Action.prune }], rfl, ?_⟩
    intro e he
    simp only [List.mem_singleton] at he
    rw [he]
    exact ⟨rfl, fun _ => rfl⟩
  by_cases hurl : repo.RepositoryUrl = u
  · have heq : processRepositoriesIter env k repo s = (s.emit k Action.prune, repo) := by
      unfold processRepositoriesIter
      simp only [hurl, h.2.1, Option.getD_some]
      rw [if_neg]
      intro hc
      exact h.2.2 hc.1
    rw [heq]
    obtain ⟨a, b, c⟩ := hskip repo
    exact ⟨a, b, c, fun _ => rfl⟩
  · have hnot : ∀ e : Event, e.origin = k →
        e.origin = k ∧ (repo.RepositoryUrl = u → e.action = Action.prune) :=
      fun e he => ⟨he, fun hc => absurd hc hurl⟩
    refine ⟨?_, ?_, ?_, fun hc => absurd hc hurl⟩
    all_goals unfold processRepositoriesIter
    all_goals simp only
    · split
      · split
        · exact h
        · have hdb : Measured u entry (processRepositoryWorker env k repo s).1.db := by
            rcases (processRepositoryWorker_frame env k repo s).2.2 with hsame | ⟨f, x, hf, _, hup⟩
            · rw [hsame]; exact h
            · rw [hup]; exact Measured_dbUpdates u entry s.db h f _ x hf hurl
          split
          · exact hdb
          · exact hdb
      · exact h
    · split
      · split
        · rfl
        · have hg := (processRepositoryWorker_frame env k repo s).2.1 u (Ne.symm hurl)
          split
          · exact hg
          · exact hg
      · rfl
    · split
      · split
        · exact ⟨[], by simp, by simp⟩
        · obtain ⟨new, hn, ho⟩ := (processRepositoryWorker_frame env k repo s).1
          split
          · exact ⟨new, hn, fun e he => hnot e (ho e he)⟩
          · refine ⟨new ++ [{ origin := k, action := Action.prune }], ?_, ?_⟩
            · simp only [State.emit]
              rw [hn, List.append_assoc]
            · intro e he
              rcases List.mem_append.mp he with he | he
              · exact hnot e (ho e he)
              · simp only [List.mem_singleton] at he
                rw [he]
                exact hnot _ rfl
      · exact (hskip repo).2.2

/-- The loop of `processRepositories` against a measured record: the record and
`GoMods` under its URL stay, and every slot of that URL keeps its element and
gets no action but the prune. -/
theorem processRepositoriesLoop_frame (env : Env) (u : String) (entry : Repository)
    (rest : List Repository) (k : Nat) (s : State) (h : Measured u entry s.db) :
    Measured u entry (processRepositoriesLoop env k rest s).1.db
    ∧ (processRepositoriesLoop env k rest s).1.GoMods u = s.GoMods u
    ∧ (∃ new, (processRepositoriesLoop env k rest s).1.trace = s.trace ++ new
        ∧ ∀ e ∈ new, k ≤ e.origin ∧ ∀ (n : Nat) (r : Repository), rest[n]? = some r →
            r.RepositoryUrl = u → e.origin = k + n → e.action = Action.prune)
    ∧ (∀ (n : Nat) (r : Repository), rest[n]? = some r → r.RepositoryUrl = u →
        (processRepositoriesLoop env k rest s).2[n]? = some r) := by
  induction rest generalizing k s with
  | nil =>
    refine ⟨h, rfl, ⟨[], by simp [processRepositoriesLoop], by simp⟩, ?_⟩
    intro n r hn
    simp at hn
  | cons repo rest ih =>
    unfold processRepositoriesLoop
    split
    · refine ⟨h, rfl, ⟨[], by simp, by simp⟩, ?_⟩
      intro n r hn _
      exact hn
    · obtain ⟨m1, g1, ⟨new1, t1, o1⟩, eq1⟩ := processRepositoriesIter_frame env k repo s u entry h
      obtain ⟨m2, g2, ⟨new2, t2, o2⟩, sl2⟩ :=
        ih (k + 1) (processRepositoriesIter env k repo s).1 m1
      refine ⟨m2, g2.trans g1, ⟨new1 ++ new2, ?_, ?_⟩, ?_⟩
      · simp only
        rw [t2, t1, List.append_assoc]
      · intro e he
        rcases List.mem_append.mp he with he | he
        · obtain ⟨ho, hp⟩ := o1 e he
          refine ⟨by omega, ?_⟩
          intro n r hn hr hor
          have hn0 : n = 0 := by omega
          subst hn0
          simp only [List.getElem?_cons_zero, Option.some.injEq] at hn
          subst hn
          exact hp hr
        · obtain ⟨ho, hp⟩ := o2 e he
          refine ⟨by omega, ?_⟩
          intro n r hn hr hor
          cases n with
          | zero => omega
          | succ m =>
            simp only [List.getElem?_cons_succ] at hn
            exact hp m r hn hr (by omega)
      · intro n r hn hr
        cases n with
        | zero =>
          simp only [List.getElem?_cons_zero, Option.some.injEq] at hn
          subst hn
          simp only [List.getElem?_cons_zero, eq1 hr]
        | succ m =>
          simp only [List.getElem?_cons_succ] at hn ⊢
          exact sl2 m r hn hr

/-- A stopped process runs no further pass. -/
theorem processRepositoriesLoop_stopped (env : Env) (k : Nat) (rest : List Repository)
    (s : State) (a : Abort) (h : s.status = some a) :
    processRepositoriesLoop env k rest s = (s, rest) := by
  cases rest with
  | nil => rfl
  | cons repo rest => simp [processRepositoriesLoop, h]

/-- The loop over a slice is the loop over a prefix followed by the loop over
the remaining slots, started in the state the prefix left. -/
theorem processRepositoriesLoop_append (env : Env) (pre post : List Repository) (k : Nat)
    (s : State) :
    processRepositoriesLoop env k (pre ++ post) s
      = ((processRepositoriesLoop env (k + pre.length) post
            (processRepositoriesLoop env k pre s).1).1,
         (processRepositoriesLoop env k pre s).2
          ++ (processRepositoriesLoop env (k + pre.length) post
            (processRepositoriesLoop env k pre s).1).2) := by
  induction pre generalizing k s with
  | nil => simp [processRepositoriesLoop]
  | cons repo rest ih =>
    cases hs : s.status with
    | some a =>
      rw [processRepositoriesLoop_stopped env k _ s a hs,
        processRepositoriesLoop_stopped env k _ s a hs,
        processRepositoriesLoop_stopped env _ _ s a hs]
    | none =>
      simp only [List.cons_append, processRepositoriesLoop, hs, List.length_cons,
        List.append_eq]
      rw [ih]
      have hk : k + 1 + rest.length = k + (rest.length + 1) := by omega
      rw [hk]

/-- C6: for every input repository whose stored record has a non-empty
`OriginalCodebaseSize`, `processRepositories` launches no worker for it: the
only action issued for its index is the prune (no clone, no line count, no
parse, no update), its slot in the returned slice is the input element, its
stored record is the same record after the stage, `GoMods` under its URL is
unchanged, and the pass of the loop for its index changes nothing of the state
but the trace, so `GoMods` and `DependencyMap` gain no entry from it. -/
theorem processRepositories_skips_measured (env : Env) (slice : List Repository)
    (st : State) (i : Nat) (repo entry : Repository)
    (hi : slice[i]? = some repo)
    (hfound : dbFirst st.db repo.RepositoryUrl = some entry)
    (hsize : entry.OriginalCodebaseSize ≠ "")
    (hok : StoreOK st.db) :
    (∃ new, (processRepositories env slice st).1.trace = st.trace ++ new
        ∧ ∀ e ∈ new, e.origin = i → e.action = Action.prune)
    ∧ (processRepositories env slice st).2[i]? = some repo
    ∧ dbFirst (processRepositories env slice st).1.db repo.RepositoryUrl = some entry
    ∧ (processRepositories env slice st).1.GoMods repo.RepositoryUrl
        = st.GoMods repo.RepositoryUrl
    ∧ processRepositoriesIter env i repo (stateBefore env slice st i)
        = ((stateBefore env slice st i).emit i Action.prune, repo) := by
  have hm : Measured repo.RepositoryUrl entry st.db := ⟨hok, hfound, hsize⟩
  have hbefore : Measured repo.RepositoryUrl entry (stateBefore env slice st i).db :=
    (processRepositoriesLoop_frame env repo.RepositoryUrl entry (slice.take i) 0 st hm).1
  have hiter := (processRepositoriesIter_frame env i repo (stateBefore env slice st i)
    repo.RepositoryUrl entry hbefore).2.2.2 rfl
  unfold processRepositories
  split
  · exact ⟨⟨[], by simp, by simp⟩, hi, hfound, rfl, hiter⟩
  · obtain ⟨m, g, ⟨new, t, o⟩, sl⟩ :=
      processRepositoriesLoop_frame env repo.RepositoryUrl entry slice 0 st hm
    refine ⟨⟨new, t, ?_⟩, sl i repo hi rfl, m.2.1, g, hiter⟩
    intro e he hor
    exact (o e he).2 i repo hi rfl (by omega)

/-- A slice with a repository that is not measured yet and one that is: the
first gets its size, the measured one, at index 1, is left alone. -/
theorem processRepositories_skips_measured_witness :
    [repoA, repoM][1]? = some repoM
    ∧ dbFirst stateAM.db repoM.RepositoryUrl = some repoM
    ∧ repoM.OriginalCodebaseSize ≠ ""
    ∧ StoreOK stateAM.db
    ∧ (processRepositories (workingEnv 1) [repoA, repoM] stateAM).1.status = none
    ∧ (processRepositories (workingEnv 1) [repoA, repoM] stateAM).2[0]?
        = some { repoA with OriginalCodebaseSize := "42" }
    ∧ (processRepositories (workingEnv 1) [repoA, repoM] stateAM).2[1]? = some repoM
    ∧ dbFirst (processRepositories (workingEnv 1) [repoA, repoM] stateAM).1.db
        repoM.RepositoryUrl = some repoM := by
  have hok : StoreOK stateAM.db := by
    unfold StoreOK
    decide
  have h := processRepositories_skips_measured (workingEnv 1) [repoA, repoM] stateAM 1
    repoM repoM (by decide) (by decide) (by decide) hok
  exact ⟨by decide, by decide, by decide, hok, by decide, by decide, h.2.1, h.2.2.1⟩

/-! ## Dependency resolution: the steps of `processLibraries` -/

/-- What the pass for one dependency does: it adds a value `v` to the total
and leaves `v` in the cache under the dependency; on a hit nothing else happens,
on a miss `v` is the answer of the line counter, asked once, after the download. -/
theorem processLibrary_spec (env : Env) (i : Nat) (acc : State × Int) (library : String) :
    ∃ v,
      (processLibrary env i acc library).2 = goAdd acc.2 v
      ∧ (processLibrary env i acc library).1.LibraryCache library = some v
      ∧ (∀ d, d ≠ library →
          (processLibrary env i acc library).1.LibraryCache d = acc.1.LibraryCache d)
      ∧ (processLibrary env i acc library).1.db = acc.1.db
      ∧ (processLibrary env i acc library).1.DependencyMap = acc.1.DependencyMap
      ∧ (processLibrary env i acc library).1.status = acc.1.status
      ∧ ((acc.1.LibraryCache library = some v
            ∧ (processLibrary env i acc library).1.trace
                = acc.1.trace ++ [Event.mk i (Action.addToTotal library v)])
          ∨ (acc.1.LibraryCache library = none
            ∧ v = env.calculateCodeLines
                (acc.1.trace ++ [Event.mk i (Action.goGet library (env.downloadableFormat library))])
                (libraryPath env library)
            ∧ (processLibrary env i acc library).1.trace
                = acc.1.trace ++
                  [Event.mk i (Action.goGet library (env.downloadableFormat library)),
                   Event.mk i (Action.countLibrary library (libraryPath env library)),
                   Event.mk i (Action.addToTotal library v)])) := by
  cases hc : acc.1.LibraryCache library with
  | some value =>
    refine ⟨value, ?_, ?_, ?_, ?_, ?_, ?_, Or.inl ⟨rfl, ?_⟩⟩
    all_goals simp [processLibrary, hc, State.emit]
  | none =>
    refine ⟨env.calculateCodeLines
      (acc.1.trace ++ [Event.mk i (Action.goGet library (env.downloadableFormat library))])
      (libraryPath env library), ?_, ?_, ?_, ?_, ?_, ?_, Or.inr ⟨rfl, rfl, ?_⟩⟩
    all_goals simp [processLibrary, hc, State.emit, mapSet]
    intro d hd
    simp [hd]

theorem processLibrary_cache_le (env : Env) (i : Nat) (acc : State × Int) (library : String) :
    CacheLe acc.1.LibraryCache (processLibrary env i acc library).1.LibraryCache := by
  obtain ⟨v, _, hlib, hother, _, _, _, hcase⟩ := processLibrary_spec env i acc library
  intro d w hd
  by_cases hdl : d = library
  · subst hdl
    rcases hcase with ⟨hhit, _⟩ | ⟨hmiss, _⟩
    · rw [hlib, ← hhit, hd]
    · rw [hmiss] at hd
      simp at hd
  · rw [hother d hdl, hd]

/-- A property of the state that the pass for a dependency keeps, and that does
not depend on the store, the status, or the prune and update actions in the
trace, holds after the loop of `processLibraries` when it holds before. -/
theorem processLibrariesLoop_invariant (env : Env) (P : State → Prop)
    (hlib : ∀ (i : Nat) (acc : State × Int) (library : String), P acc.1 →
      P (processLibrary env i acc library).1)
    (hemit : ∀ (st : State) (i : Nat) (a : Action),
      (a = Action.prune ∨ ∃ r, a = Action.dbUpdates r) → P st → P (st.emit i a))
    (hdb : ∀ (st : State) (db : List Repository), P st → P { st with db := db })
    (hstatus : ∀ (st : State) (x : Option Abort), P st → P { st with status := x })
    (rest : List Repository) (k : Nat) (st : State) (h : P st) :
    P (processLibrariesLoop env k rest st).1 := by
  have hfold : ∀ (i : Nat) (deps : List String) (acc : State × Int), P acc.1 →
      P (deps.foldl (processLibrary env i) acc).1 := by
    intro i deps
    induction deps with
    | nil => intro acc h; exact h
    | cons d deps ih => intro acc h; exact ih _ (hlib i acc d h)
  have hiter : ∀ (i : Nat) (repo : Repository) (s : State), P s →
      P (processLibrariesIter env i repo s).1 := by
    intro i repo s hs
    unfold processLibrariesIter
    split
    · simp only
      split
      · exact hstatus _ _ (hemit _ _ _ (Or.inl rfl) (hfold i _ (s, 0) hs))
      · exact hdb _ _ (hemit _ _ _ (Or.inr ⟨_, rfl⟩)
          (hemit _ _ _ (Or.inl rfl) (hfold i _ (s, 0) hs)))
    · exact hs
  induction rest generalizing k st with
  | nil => exact h
  | cons repo rest ih =>
    unfold processLibrariesLoop
    split
    · exact h
    · exact ih (k + 1) _ (hiter k repo st h)

theorem processLibrariesLoop_dependencyMap (env : Env) (rest : List Repository) (k : Nat)
    (st : State) :
    (processLibrariesLoop env k rest st).1.DependencyMap = st.DependencyMap := by
  apply processLibrariesLoop_invariant env (fun s => s.DependencyMap = st.DependencyMap)
  · intro i acc library h
    obtain ⟨_, _, _, _, _, hdm, _⟩ := processLibrary_spec env i acc library
    exact hdm.trans h
  · intro s i a _ h; exact h
  · intro s db h; exact h
  · intro s x h; exact h
  · rfl

theorem processLibrariesLoop_cache_le (env : Env) (rest : List Repository) (k : Nat)
    (st : State) (c : String → Option Int) (h : CacheLe c st.LibraryCache) :
    CacheLe c (processLibrariesLoop env k rest st).1.LibraryCache := by
  apply processLibrariesLoop_invariant env (fun s => CacheLe c s.LibraryCache)
  · intro i acc library h d v hd
    exact processLibrary_cache_le env i acc library d v (h d v hd)
  · intro s i a _ h; exact h
  · intro s db h; exact h
  · intro s x h; exact h
  · exact h

theorem processLibrariesLoop_storeOK (env : Env) (rest : List Repository) (k : Nat)
    (st : State) (h : StoreOK st.db) :
    StoreOK (processLibrariesLoop env k rest st).1.db := by
  have hfold : ∀ (i : Nat) (deps : List String) (acc : State × Int),
      (deps.foldl (processLibrary env i) acc).1.db = acc.1.db := by
    intro i deps
    induction deps with
    | nil => intro acc; rfl
    | cons d deps ih =>
      intro acc
      obtain ⟨_, _, _, _, hdb, _⟩ := processLibrary_spec env i acc d
      exact (ih _).trans hdb
  induction rest generalizing k st with
  | nil => exact h
  | cons repo rest ih =>
    unfold processLibrariesLoop
    split
    · exact h
    · apply ih
      unfold processLibrariesIter
      split
      · simp only
        split
        · simp only [State.emit]
          rw [hfold]
          exact h
        · simp only [State.emit]
          apply StoreOK_dbUpdates
          rw [hfold]
          exact h
      · exact h

/-! ## Dependency resolution: the loop over the repositories -/

/-- A stopped process runs no further pass. -/
theorem processLibrariesLoop_stopped (env : Env) (k : Nat) (rest : List Repository)
    (s : State) (a : Abort) (h : s.status = some a) :
    processLibrariesLoop env k rest s = (s, rest) := by
  cases rest with
  | nil => rfl
  | cons repo rest => simp [processLibrariesLoop, h]

/-- The loop over a slice is the loop over a prefix followed by the loop over
the remaining slots, started in the state the prefix left. -/
theorem processLibrariesLoop_append (env : Env) (pre post : List Repository) (k : Nat)
    (s : State) :
    processLibrariesLoop env k (pre ++ post) s
      = ((processLibrariesLoop env (k + pre.length) post
            (processLibrariesLoop env k pre s).1).1,
         (processLibrariesLoop env k pre s).2
          ++ (processLibrariesLoop env (k + pre.length) post
            (processLibrariesLoop env k pre s).1).2) := by
  induction pre generalizing k s with
  | nil => simp [processLibrariesLoop]
  | cons repo rest ih =>
    cases hs : s.status with
    | some a =>
      rw [processLibrariesLoop_stopped env k _ s a hs,
        processLibrariesLoop_stopped env k _ s a hs,
        processLibrariesLoop_stopped env _ _ s a hs]
    | none =>
      simp only [List.cons_append, processLibrariesLoop, hs, List.length_cons,
        List.append_eq]
      rw [ih]
      have hk : k + 1 + rest.length = k + (rest.length + 1) := by omega
      rw [hk]

theorem processLibrariesLoop_length (env : Env) (rest : List Repository) (k : Nat)
    (s : State) : (processLibrariesLoop env k rest s).2.length = rest.length := by
  induction rest generalizing k s with
  | nil => rfl
  | cons repo rest ih =>
    unfold processLibrariesLoop
    split
    · rfl
    · simp [ih]

/-- A loop that ends with the process running was started with it running. -/
theorem processLibrariesLoop_running (env : Env) (rest : List Repository) (k : Nat)
    (s : State) (h : (processLibrariesLoop env k rest s).1.status = none) :
    s.status = none := by
  cases hs : s.status with
  | none => rfl
  | some a =>
    rw [processLibrariesLoop_stopped env k rest s a hs] at h
    rw [hs] at h
    exact h

/-- The run of `processLibraries` seen from index `i`: the loop reaches the
index with the process running, makes the pass for it, and goes on from the
state the pass left; the slot `i` of the result is the one the pass wrote. -/
theorem processLibraries_pass (env : Env) (slice : List Repository) (st : State) (i : Nat)
    (repo : Repository) (hi : slice[i]? = some repo)
    (hfin : (processLibraries env slice st).1.status = none) :
    (libraryStateBefore env slice st i).status = none
    ∧ libraryStateAfter env slice st i
        = (processLibrariesIter env i repo (libraryStateBefore env slice st i)).1
    ∧ (libraryStateAfter env slice st i).status = none
    ∧ (processLibraries env slice st).1
        = (processLibrariesLoop env (i + 1) (slice.drop (i + 1))
            (libraryStateAfter env slice st i)).1
    ∧ (processLibraries env slice st).2[i]?
        = some (processLibrariesIter env i repo (libraryStateBefore env slice st i)).2 := by
  have hlt : i < slice.length := (List.getElem?_eq_some.mp hi).1
  have hget : slice[i] = repo := (List.getElem?_eq_some.mp hi).2
  have hsplit : slice = slice.take i ++ repo :: slice.drop (i + 1) := by
    rw [← hget]
    simp
  have hlen : (slice.take i).length = i := by
    rw [List.length_take]; omega
  have hrun : processLibraries env slice st
      = ((processLibrariesLoop env i (repo :: slice.drop (i + 1))
            (libraryStateBefore env slice st i)).1,
         (processLibrariesLoop env 0 (slice.take i) st).2
          ++ (processLibrariesLoop env i (repo :: slice.drop (i + 1))
            (libraryStateBefore env slice st i)).2) := by
    have h := processLibrariesLoop_append env (slice.take i) (repo :: slice.drop (i + 1)) 0 st
    rw [← hsplit, hlen, Nat.zero_add] at h
    exact h
  have hbefore : (libraryStateBefore env slice st i).status = none := by
    apply processLibrariesLoop_running env (repo :: slice.drop (i + 1)) i
    rw [hrun] at hfin
    exact hfin
  have hcons : processLibrariesLoop env i (repo :: slice.drop (i + 1))
        (libraryStateBefore env slice st i)
      = ((processLibrariesLoop env (i + 1) (slice.drop (i + 1))
            (processLibrariesIter env i repo (libraryStateBefore env slice st i)).1).1,
         (processLibrariesIter env i repo (libraryStateBefore env slice st i)).2
          :: (processLibrariesLoop env (i + 1) (slice.drop (i + 1))
            (processLibrariesIter env i repo (libraryStateBefore env slice st i)).1).2) := by
    simp [processLibrariesLoop, hbefore]
  have hafter : libraryStateAfter env slice st i
      = (processLibrariesIter env i repo (libraryStateBefore env slice st i)).1 := by
    have htake : slice.take (i + 1) = slice.take i ++ [repo] := by
      rw [List.take_succ, hi]
      rfl
    unfold libraryStateAfter
    rw [htake, processLibrariesLoop_append, hlen, Nat.zero_add]
    simp only [processLibrariesLoop]
    have hb : (processLibrariesLoop env 0 (List.take i slice) st).1.status = none := hbefore
    simp only [hb]
    rfl
  rw [hrun, hcons] at hfin
  refine ⟨hbefore, hafter, ?_, ?_, ?_⟩
  · rw [hafter]
    exact processLibrariesLoop_running env _ _ _ hfin
  · rw [hrun, hcons, hafter]
  · rw [hrun, hcons]
    have hl : (processLibrariesLoop env 0 (List.take i slice) st).2.length = i := by
      rw [processLibrariesLoop_length, hlen]
    simp only
    rw [List.getElem?_append_right (by omega), hl, Nat.sub_self]
    simp

/-! ## Dependency resolution: memoization -/

theorem measured_append (a b : List Event) : measured (a ++ b) = measured a ++ measured b := by
  simp [measured, List.filterMap_append]

theorem Memo_entry (env : Env) (st : State) : Memo env st.LibraryCache st.trace st := by
  refine ⟨fun _ _ h => h, [], by simp, by simp [measured], ?_, ?_, ?_⟩
  · intro d hd; simp [measured] at hd
  · intro e he; simp at he
  · intro d v h; exact Or.inl h

theorem Memo_processLibrary (env : Env) (c0 : String → Option Int) (t0 : List Event)
    (i : Nat) (acc : State × Int) (library : String) (h : Memo env c0 t0 acc.1) :
    Memo env c0 t0 (processLibrary env i acc library).1 := by
  obtain ⟨hle, new, htr, hnd, hms, hadd, hprov⟩ := h
  obtain ⟨v, _, hlib, hother, _, _, _, hcase⟩ := processLibrary_spec env i acc library
  have hmono := processLibrary_cache_le env i acc library
  rcases hcase with ⟨hhit, htrace⟩ | ⟨hmiss, hv, htrace⟩
  · -- the dependency is cached: one addition, no measurement
    refine ⟨fun d w hd => hmono d w (hle d w hd),
      new ++ [Event.mk i (Action.addToTotal library v)], ?_, ?_, ?_, ?_, ?_⟩
    · rw [htrace, htr, List.append_assoc]
    · rw [measured_append]; simpa [measured] using hnd
    · intro d hd
      rw [measured_append] at hd
      have hd2 : d ∈ measured new := by simpa [measured] using hd
      obtain ⟨h1, h2⟩ := hms d hd2
      refine ⟨h1, ?_⟩
      cases hcd : acc.1.LibraryCache d with
      | none => exact absurd hcd h2
      | some w => rw [hmono d w hcd]; simp
    · intro e he d w hact
      rcases List.mem_append.mp he with he | he
      · exact hmono d w (hadd e he d w hact)
      · simp only [List.mem_singleton] at he
        subst he
        simp only [Action.addToTotal.injEq] at hact
        obtain ⟨rfl, rfl⟩ := hact
        exact hlib
    · intro d w hd
      have hold : acc.1.LibraryCache d = some w := by
        by_cases hdl : d = library
        · subst hdl
          rw [hlib] at hd
          rw [hhit, ← hd]
        · rw [hother d hdl] at hd
          exact hd
      rcases hprov d w hold with hc | ⟨before, rest, j, hnew, hw⟩
      · exact Or.inl hc
      · refine Or.inr ⟨before, rest ++ [Event.mk i (Action.addToTotal library v)], j, ?_, hw⟩
        rw [hnew]; simp
  · -- the dependency is not cached: one download, one measurement, one addition
    have hc0 : c0 library = none := by
      cases hc : c0 library with
      | none => rfl
      | some w =>
        have := hle library w hc
        rw [hmiss] at this
        simp at this
    have hfresh : library ∉ measured new := by
      intro hin
      exact (hms library hin).2 hmiss
    refine ⟨fun d w hd => hmono d w (hle d w hd),
      new ++ [Event.mk i (Action.goGet library (env.downloadableFormat library)),
        Event.mk i (Action.countLibrary library (libraryPath env library)),
        Event.mk i (Action.addToTotal library v)], ?_, ?_, ?_, ?_, ?_⟩
    · rw [htrace, htr, List.append_assoc]
    · rw [measured_append]
      have hone : measured [Event.mk i (Action.goGet library (env.downloadableFormat library)),
          Event.mk i (Action.countLibrary library (libraryPath env library)),
          Event.mk i (Action.addToTotal library v)] = [library] := rfl
      rw [hone, List.nodup_append]
      refine ⟨hnd, List.nodup_singleton _, ?_⟩
      intro d hd hd2
      simp only [List.mem_singleton] at hd2
      subst hd2
      exact hfresh hd
    · intro d hd
      rw [measured_append] at hd
      have hone : measured [Event.mk i (Action.goGet library (env.downloadableFormat library)),
          Event.mk i (Action.countLibrary library (libraryPath env library)),
          Event.mk i (Action.addToTotal library v)] = [library] := rfl
      rw [hone] at hd
      rcases List.mem_append.mp hd with hd | hd
      · obtain ⟨h1, h2⟩ := hms d hd
        refine ⟨h1, ?_⟩
        cases hcd : acc.1.LibraryCache d with
        | none => exact absurd hcd h2
        | some w => rw [hmono d w hcd]; simp
      · simp only [List.mem_singleton] at hd
        subst hd
        exact ⟨hc0, by rw [hlib]; simp⟩
    · intro e he d w hact
      rcases List.mem_append.mp he with he | he
      · exact hmono d w (hadd e he d w hact)
      · simp only [List.mem_cons, List.mem_singleton, List.not_mem_nil, or_false] at he
        rcases he with rfl | rfl | rfl
        · simp at hact
        · simp at hact
        · simp only [Action.addToTotal.injEq] at hact
          obtain ⟨rfl, rfl⟩ := hact
          exact hlib
    · intro d w hd
      by_cases hdl : d = library
      · subst hdl
        rw [hlib] at hd
        simp only [Option.some.injEq] at hd
        subst hd
        refine Or.inr ⟨new ++ [Event.mk i (Action.goGet d (env.downloadableFormat d))],
          [Event.mk i (Action.addToTotal d v)], i, by simp, ?_⟩
        rw [hv, htr, List.append_assoc]
      · rw [hother d hdl] at hd
        rcases hprov d w hd with hc | ⟨before, rest, j, hnew, hw⟩
        · exact Or.inl hc
        · refine Or.inr ⟨before, rest ++
            [Event.mk i (Action.goGet library (env.downloadableFormat library)),
             Event.mk i (Action.countLibrary library (libraryPath env library)),
             Event.mk i (Action.addToTotal library v)], j, ?_, hw⟩
          rw [hnew]; simp

theorem Memo_emit (env : Env) (c0 : String → Option Int) (t0 : List Event) (st : State)
    (i : Nat) (a : Action) (ha : a = Action.prune ∨ ∃ r, a = Action.dbUpdates r)
    (h : Memo env c0 t0 st) : Memo env c0 t0 (st.emit i a) := by
  obtain ⟨hle, new, htr, hnd, hms, hadd, hprov⟩ := h
  have hnone : measured [Event.mk i a] = [] := by
    rcases ha with rfl | ⟨r, rfl⟩ <;> rfl
  refine ⟨hle, new ++ [Event.mk i a], ?_, ?_, ?_, ?_, ?_⟩
  · simp only [State.emit]
    rw [htr, List.append_assoc]
  · rw [measured_append, hnone, List.append_nil]; exact hnd
  · intro d hd
    rw [measured_append, hnone, List.append_nil] at hd
    exact hms d hd
  · intro e he d w hact
    rcases List.mem_append.mp he with he | he
    · exact hadd e he d w hact
    · simp only [List.mem_singleton] at he
      subst he
      rcases ha with rfl | ⟨r, rfl⟩ <;> simp at hact
  · intro d w hd
    rcases hprov d w hd with hc | ⟨before, rest, j, hnew, hw⟩
    · exact Or.inl hc
    · refine Or.inr ⟨before, rest ++ [Event.mk i a], j, ?_, hw⟩
      rw [hnew]; simp

theorem Memo_processLibrariesLoop (env : Env) (c0 : String → Option Int) (t0 : List Event)
    (rest : List Repository) (k : Nat) (st : State) (h : Memo env c0 t0 st) :
    Memo env c0 t0 (processLibrariesLoop env k rest st).1 :=
  processLibrariesLoop_invariant env (Memo env c0 t0)
    (fun i acc library h => Memo_processLibrary env c0 t0 i acc library h)
    (fun st i a ha h => Memo_emit env c0 t0 st i a ha h)
    (fun _ _ h => h) (fun _ _ h => h) rest k st h

/-! ## Dependency resolution: the running total -/

theorem wrapInt_add_left (x y : Int) : wrapInt (wrapInt x + y) = wrapInt (x + y) := by
  unfold wrapInt
  norm_num
  omega

theorem wrapInt_of_range (x : Int) (h1 : -2 ^ 63 ≤ x) (h2 : x < 2 ^ 63) : wrapInt x = x := by
  unfold wrapInt
  norm_num at h1 h2 ⊢
  omega

theorem foldl_goAdd (vs : List Int) (a : Int) :
    vs.foldl goAdd (wrapInt a) = wrapInt (a + vs.sum) := by
  induction vs generalizing a with
  | nil => simp
  | cons v vs ih =>
    simp only [List.foldl_cons, List.sum_cons, goAdd, wrapInt_add_left]
    rw [ih, add_assoc]

/-- Go's running total is the mathematical sum, reduced to 64 bits. -/
theorem goSum_eq (vs : List Int) : goSum vs = wrapInt vs.sum := by
  have h := foldl_goAdd vs 0
  have h0 : wrapInt 0 = 0 := by decide
  rw [h0, Int.zero_add] at h
  exact h

theorem foldl_processLibrary_frame (env : Env) (i : Nat) (deps : List String)
    (acc : State × Int) :
    (deps.foldl (processLibrary env i) acc).1.db = acc.1.db
    ∧ (deps.foldl (processLibrary env i) acc).1.status = acc.1.status
    ∧ (deps.foldl (processLibrary env i) acc).1.DependencyMap = acc.1.DependencyMap
    ∧ CacheLe acc.1.LibraryCache (deps.foldl (processLibrary env i) acc).1.LibraryCache := by
  induction deps generalizing acc with
  | nil => exact ⟨rfl, rfl, rfl, fun _ _ h => h⟩
  | cons d deps ih =>
    obtain ⟨_, _, _, _, hdb, hdm, hst, _⟩ := processLibrary_spec env i acc d
    obtain ⟨h1, h2, h3, h4⟩ := ih (processLibrary env i acc d)
    exact ⟨h1.trans hdb, h2.trans hst, h3.trans hdm,
      fun x v hx => h4 x v (processLibrary_cache_le env i acc d x v hx)⟩

/-- The total after the dependency loop is the running total over the cached
values of the dependencies, read from any cache that extends the one the loop
left; every dependency of the list is in that cache. -/
theorem foldl_processLibrary_total (env : Env) (i : Nat) (deps : List String)
    (acc : State × Int) (c : String → Option Int)
    (hc : CacheLe (deps.foldl (processLibrary env i) acc).1.LibraryCache c) :
    (deps.foldl (processLibrary env i) acc).2
      = (deps.map (fun d => (c d).getD 0)).foldl goAdd acc.2
    ∧ ∀ d ∈ deps, c d ≠ none := by
  induction deps generalizing acc with
  | nil => exact ⟨rfl, by simp⟩
  | cons d deps ih =>
    obtain ⟨v, hv, hlib, _⟩ := processLibrary_spec env i acc d
    obtain ⟨h1, h2⟩ := ih (processLibrary env i acc d) hc
    have hcd : c d = some v :=
      hc d v ((foldl_processLibrary_frame env i deps _).2.2.2 d v hlib)
    refine ⟨?_, ?_⟩
    · simp only [List.foldl_cons, List.map_cons, hcd, Option.getD_some]
      rw [h1, hv]
    · intro x hx
      rcases List.mem_cons.mp hx with rfl | hx
      · rw [hcd]; simp
      · exact h2 x hx

/-- The dependency loop of repository `i` adds a value for every dependency of
the list. -/
theorem foldl_processLibrary_adds (env : Env) (i : Nat) (deps : List String)
    (acc : State × Int) :
    ∃ ext, (deps.foldl (processLibrary env i) acc).1.trace = acc.1.trace ++ ext
      ∧ ∀ d ∈ deps, ∃ v, Event.mk i (Action.addToTotal d v) ∈ ext := by
  induction deps generalizing acc with
  | nil => exact ⟨[], by simp, by simp⟩
  | cons d deps ih =>
    obtain ⟨v, _, _, _, _, _, _, hcase⟩ := processLibrary_spec env i acc d
    obtain ⟨ext, htr, hall⟩ := ih (processLibrary env i acc d)
    have hstep : ∃ e1, (processLibrary env i acc d).1.trace = acc.1.trace ++ e1
        ∧ Event.mk i (Action.addToTotal d v) ∈ e1 := by
      rcases hcase with ⟨_, ht⟩ | ⟨_, _, ht⟩
      · exact ⟨_, ht, by simp⟩
      · exact ⟨_, ht, by simp⟩
    obtain ⟨e1, ht1, hin⟩ := hstep
    refine ⟨e1 ++ ext, ?_, ?_⟩
    · simp only [List.foldl_cons]
      rw [htr, ht1, List.append_assoc]
    · intro x hx
      rcases List.mem_cons.mp hx with rfl | hx
      · exact ⟨v, List.mem_append_left _ hin⟩
      · obtain ⟨w, hw⟩ := hall x hx
        exact ⟨w, List.mem_append_right _ hw⟩

theorem processLibrariesLoop_trace (env : Env) (rest : List Repository) (k : Nat)
    (st : State) : ∃ ext, (processLibrariesLoop env k rest st).1.trace = st.trace ++ ext := by
  apply processLibrariesLoop_invariant env (fun s => ∃ ext, s.trace = st.trace ++ ext)
  · intro i acc library h
    obtain ⟨ext, he⟩ := h
    obtain ⟨e2, h2, _⟩ := foldl_processLibrary_adds env i [library] acc
    refine ⟨ext ++ e2, ?_⟩
    rw [← List.append_assoc, ← he]
    exact h2
  · intro s i a _ h
    obtain ⟨ext, he⟩ := h
    exact ⟨ext ++ [Event.mk i a], by simp only [State.emit]; rw [he, List.append_assoc]⟩
  · intro s db h; exact h
  · intro s x h; exact h
  · exact ⟨[], by simp⟩

/-! ## Dependency resolution: the pass for one repository -/

/-- The pass for a repository with an empty `LibraryCodebaseSize` whose record
is in the store: the record is written back with the decimal total. -/
theorem processLibrariesIter_found (env : Env) (i : Nat) (repo : Repository) (s : State)
    (found : Repository) (hempty : repo.LibraryCodebaseSize = "")
    (hfound : dbFirst s.db repo.RepositoryUrl = some found) :
    (processLibrariesIter env i repo s).2
        = { found with
            LibraryCodebaseSize := Itoa
              ((s.DependencyMap repo.RepositoryName).foldl (processLibrary env i) (s, 0)).2 }
    ∧ (processLibrariesIter env i repo s).1.db
        = dbUpdates (processLibrariesIter env i repo s).2 s.db
    ∧ (processLibrariesIter env i repo s).1.LibraryCache
        = ((s.DependencyMap repo.RepositoryName).foldl (processLibrary env i) (s, 0)).1.LibraryCache
    ∧ (processLibrariesIter env i repo s).1.status = s.status
    ∧ (processLibrariesIter env i repo s).1.trace
        = ((s.DependencyMap repo.RepositoryName).foldl (processLibrary env i) (s, 0)).1.trace
          ++ [Event.mk i Action.prune,
              Event.mk i (Action.dbUpdates (processLibrariesIter env i repo s).2)] := by
  obtain ⟨hdb, hst, _, _⟩ := foldl_processLibrary_frame env i
    (s.DependencyMap repo.RepositoryName) (s, 0)
  have hfound2 : dbFirst (((s.DependencyMap repo.RepositoryName).foldl (processLibrary env i)
      (s, 0)).1.emit i Action.prune).db repo.RepositoryUrl = some found := by
    simp only [State.emit]
    rw [hdb]
    exact hfound
  unfold processLibrariesIter
  rw [if_pos hempty]
  simp only [hfound2]
  simp [State.emit, hdb, hst]

/-- The pass for a repository with an empty `LibraryCodebaseSize` whose record
is not in the store ends the process. -/
theorem processLibrariesIter_missing (env : Env) (i : Nat) (repo : Repository) (s : State)
    (hempty : repo.LibraryCodebaseSize = "")
    (hnone : dbFirst s.db repo.RepositoryUrl = none) :
    (processLibrariesIter env i repo s).1.status = some Abort.fatal := by
  obtain ⟨hdb, _, _, _⟩ := foldl_processLibrary_frame env i
    (s.DependencyMap repo.RepositoryName) (s, 0)
  have hnone2 : dbFirst (((s.DependencyMap repo.RepositoryName).foldl (processLibrary env i)
      (s, 0)).1.emit i Action.prune).db repo.RepositoryUrl = none := by
    simp only [State.emit]
    rw [hdb]
    exact hnone
  unfold processLibrariesIter
  rw [if_pos hempty]
  simp only [hnone2]

theorem repositoryExists_dbUpdates (db : List Repository) (hok : StoreOK db)
    (found rs : Repository) (hmem : found ∈ db) (hid : rs.ID = found.ID)
    (hurl : rs.RepositoryUrl = found.RepositoryUrl) (r : Repository)
    (h : repositoryExists db r = true) : repositoryExists (dbUpdates rs db) r = true := by
  unfold repositoryExists at h ⊢
  rw [dbFirst_dbUpdates db hok found rs hmem hid hurl]
  cases hf : dbFirst db r.RepositoryUrl with
  | none => rw [hf] at h; simp at h
  | some x => simp

/-- When the process runs at entry and every repository of the slice with an
empty `LibraryCodebaseSize` has a record in the store, `processLibraries` does
not stop. -/
theorem processLibrariesLoop_returns (env : Env) (rest : List Repository) (k : Nat)
    (s : State) (hrun : s.status = none) (hok : StoreOK s.db)
    (hstored : ∀ r ∈ rest, r.LibraryCodebaseSize = "" → repositoryExists s.db r = true) :
    (processLibrariesLoop env k rest s).1.status = none := by
  induction rest generalizing k s with
  | nil => exact hrun
  | cons repo rest ih =>
    simp only [processLibrariesLoop, hrun]
    by_cases hempty : repo.LibraryCodebaseSize = ""
    · have hex := hstored repo (List.mem_cons_self _ _) hempty
      cases hf : dbFirst s.db repo.RepositoryUrl with
      | none =>
        unfold repositoryExists at hex
        rw [hf] at hex
        simp at hex
      | some found =>
        obtain ⟨h2, hdb, _, hst, _⟩ := processLibrariesIter_found env k repo s found hempty hf
        apply ih
        · rw [hst]; exact hrun
        · rw [hdb]; exact StoreOK_dbUpdates _ hok _
        · intro r hr hre
          rw [hdb]
          apply repositoryExists_dbUpdates s.db hok found _ (dbFirst_mem hf)
          · rw [h2]
          · rw [h2]
          · exact hstored r (List.mem_cons_of_mem _ hr) hre
    · have hskip : processLibrariesIter env k repo s = (s, repo) := by
        unfold processLibrariesIter
        rw [if_neg hempty]
      rw [hskip]
      exact ih (k + 1) s hrun hok (fun r hr => hstored r (List.mem_cons_of_mem _ hr))

/-! ## Dependency resolution: the claims -/

theorem downloaded_append (a b : List Event) :
    downloaded (a ++ b) = downloaded a ++ downloaded b := by
  simp [downloaded, List.filterMap_append]

theorem Paired_processLibrary (t0 : List Event) (env : Env) (i : Nat) (acc : State × Int)
    (library : String) (h : Paired t0 acc.1) :
    Paired t0 (processLibrary env i acc library).1 := by
  obtain ⟨new, htr, hpair⟩ := h
  obtain ⟨v, _, _, _, _, _, _, hcase⟩ := processLibrary_spec env i acc library
  rcases hcase with ⟨_, htrace⟩ | ⟨_, _, htrace⟩
  · refine ⟨new ++ [Event.mk i (Action.addToTotal library v)], ?_, ?_⟩
    · rw [htrace, htr, List.append_assoc]
    · rw [downloaded_append, measured_append, hpair]
      rfl
  · refine ⟨new ++ [Event.mk i (Action.goGet library (env.downloadableFormat library)),
        Event.mk i (Action.countLibrary library (libraryPath env library)),
        Event.mk i (Action.addToTotal library v)], ?_, ?_⟩
    · rw [htrace, htr, List.append_assoc]
    · rw [downloaded_append, measured_append, hpair]
      rfl

theorem Paired_emit (t0 : List Event) (st : State) (i : Nat) (a : Action)
    (ha : a = Action.prune ∨ ∃ r, a = Action.dbUpdates r) (h : Paired t0 st) :
    Paired t0 (st.emit i a) := by
  obtain ⟨new, htr, hpair⟩ := h
  refine ⟨new ++ [Event.mk i a], ?_, ?_⟩
  · simp only [State.emit]
    rw [htr, List.append_assoc]
  · rw [downloaded_append, measured_append, hpair]
    rcases ha with rfl | ⟨r, rfl⟩ <;> rfl

theorem Paired_processLibrariesLoop (env : Env) (rest : List Repository) (k : Nat)
    (st : State) : Paired st.trace (processLibrariesLoop env k rest st).1 :=
  processLibrariesLoop_invariant env (Paired st.trace)
    (fun i acc library h => Paired_processLibrary st.trace env i acc library h)
    (fun s i a ha h => Paired_emit st.trace s i a ha h)
    (fun _ _ h => h) (fun _ _ h => h) rest k st ⟨[], by simp, rfl⟩

/-- The slot that the pass for a repository with an empty `LibraryCodebaseSize`
writes, when the call returns: the decimal rendering of the Go sum of the
counts that the cache holds at the end for its dependencies, each of which is
in the cache. -/
theorem processLibraries_slot (env : Env) (slice : List Repository) (st : State) (i : Nat)
    (repo : Repository) (hi : slice[i]? = some repo)
    (hempty : repo.LibraryCodebaseSize = "")
    (hfin : (processLibraries env slice st).1.status = none) :
    ∃ r, (processLibraries env slice st).2[i]? = some r
      ∧ r.LibraryCodebaseSize = Itoa (goSum ((st.DependencyMap repo.RepositoryName).map
          (fun d => ((processLibraries env slice st).1.LibraryCache d).getD 0)))
      ∧ ∀ d ∈ st.DependencyMap repo.RepositoryName,
          (processLibraries env slice st).1.LibraryCache d ≠ none := by
  obtain ⟨_, hafter, hafterst, hfinal, hslot⟩ :=
    processLibraries_pass env slice st i repo hi hfin
  have hdm : (libraryStateBefore env slice st i).DependencyMap = st.DependencyMap :=
    processLibrariesLoop_dependencyMap env _ 0 st
  cases hf : dbFirst (libraryStateBefore env slice st i).db repo.RepositoryUrl with
  | none =>
    have := processLibrariesIter_missing env i repo _ hempty hf
    rw [← hafter, hafterst] at this
    simp at this
  | some found =>
    obtain ⟨h2, _, hcache, _, _⟩ := processLibrariesIter_found env i repo _ found hempty hf
    rw [hdm] at h2 hcache
    have hle : CacheLe ((st.DependencyMap repo.RepositoryName).foldl (processLibrary env i)
        (libraryStateBefore env slice st i, 0)).1.LibraryCache
        (processLibraries env slice st).1.LibraryCache := by
      rw [← hcache, ← hafter, hfinal]
      exact processLibrariesLoop_cache_le env _ _ _ _ (fun _ _ h => h)
    obtain ⟨htotal, hall⟩ := foldl_processLibrary_total env i
      (st.DependencyMap repo.RepositoryName) (libraryStateBefore env slice st i, 0)
      (processLibraries env slice st).1.LibraryCache hle
    refine ⟨_, hslot, ?_, hall⟩
    rw [h2]
    simp only
    rw [htotal]
    rfl

/-- C1: in `processLibraries`, with the download command and the line counter
as an oracle whose answers may depend on everything done before: for every list
of repositories and every `DependencyMap`, over the whole call the download
command is run and the line counter is asked at most once per dependency
identifier, each download being followed by the one measurement of the same
identifier, and neither is done for an identifier in `LibraryCache` at entry.
The pass for a dependency adds to the running total the value it leaves in the
cache for it and keeps every entry of the cache, so an entry present at entry or
after any number of passes is present, unchanged, at the end, and every value
added to a total is the value the cache holds for the dependency at the end.
When the call returns, every repository with an empty `LibraryCodebaseSize`
adds that value for each dependency it lists: its returned `LibraryCodebaseSize`
is the decimal rendering of the Go sum of the final cached values of its
dependencies, the same value for a dependency in every repository that lists
it. -/
theorem processLibraries_memoizes (env : Env) (slice : List Repository) (st : State) :
    ∃ new, (processLibraries env slice st).1.trace = st.trace ++ new
      ∧ (measured new).Nodup
      ∧ (downloaded new).Nodup
      ∧ downloaded new = measured new
      ∧ (∀ d ∈ measured new, st.LibraryCache d = none)
      ∧ (∀ d ∈ downloaded new, st.LibraryCache d = none)
      ∧ (∀ (i : Nat) (acc : State × Int) (library : String), ∃ v,
          (processLibrary env i acc library).2 = goAdd acc.2 v
          ∧ (processLibrary env i acc library).1.LibraryCache library = some v
          ∧ CacheLe acc.1.LibraryCache (processLibrary env i acc library).1.LibraryCache)
      ∧ (∀ (pre post : List Repository), slice = pre ++ post →
          CacheLe (processLibrariesLoop env 0 pre st).1.LibraryCache
            (processLibraries env slice st).1.LibraryCache)
      ∧ (∀ e ∈ new, ∀ d v, e.action = Action.addToTotal d v →
          (processLibraries env slice st).1.LibraryCache d = some v)
      ∧ ((processLibraries env slice st).1.status = none →
          ∀ (i : Nat) (repo : Repository), slice[i]? = some repo →
            repo.LibraryCodebaseSize = "" →
            ∃ r, (processLibraries env slice st).2[i]? = some r
              ∧ r.LibraryCodebaseSize
                  = Itoa (goSum ((st.DependencyMap repo.RepositoryName).map
                      (fun d => ((processLibraries env slice st).1.LibraryCache d).getD 0)))
              ∧ ∀ d ∈ st.DependencyMap repo.RepositoryName,
                  ∃ v, Event.mk i (Action.addToTotal d v) ∈ new
                    ∧ (processLibraries env slice st).1.LibraryCache d = some v) := by
  obtain ⟨_, new, htr, hnd, hms, hadd, _⟩ :=
    Memo_processLibrariesLoop env st.LibraryCache st.trace slice 0 st (Memo_entry env st)
  have hpair : downloaded new = measured new := by
    obtain ⟨new2, htr2, hp⟩ := Paired_processLibrariesLoop env slice 0 st
    have hsame : new2 = new := List.append_cancel_left (htr2.symm.trans htr)
    rw [← hsame]
    exact hp
  refine ⟨new, htr, hnd, hpair ▸ hnd, hpair, fun d hd => (hms d hd).1,
    fun d hd => (hms d (hpair ▸ hd)).1, ?_, ?_, hadd, ?_⟩
  · intro i acc library
    obtain ⟨v, hv, hlib, _⟩ := processLibrary_spec env i acc library
    exact ⟨v, hv, hlib, processLibrary_cache_le env i acc library⟩
  · intro pre post hsplit
    subst hsplit
    unfold processLibraries
    rw [processLibrariesLoop_append]
    exact processLibrariesLoop_cache_le env post _ _ _ (fun _ _ h => h)
  · intro hfin i repo hi hempty
    obtain ⟨r, hslot, hsize, _⟩ := processLibraries_slot env slice st i repo hi hempty hfin
    refine ⟨r, hslot, hsize, ?_⟩
    intro d hd
    obtain ⟨hbefore, hafter, hafterst, hfinal, _⟩ :=
      processLibraries_pass env slice st i repo hi hfin
    have hdm : (libraryStateBefore env slice st i).DependencyMap = st.DependencyMap :=
      processLibrariesLoop_dependencyMap env _ 0 st
    obtain ⟨extpre, hpre⟩ := processLibrariesLoop_trace env (slice.take i) 0 st
    obtain ⟨extpost, hpost⟩ := processLibrariesLoop_trace env (slice.drop (i + 1)) (i + 1)
      (libraryStateAfter env slice st i)
    cases hf : dbFirst (libraryStateBefore env slice st i).db repo.RepositoryUrl with
    | none =>
      have := processLibrariesIter_missing env i repo _ hempty hf
      rw [← hafter, hafterst] at this
      simp at this
    | some found =>
      obtain ⟨_, _, _, _, hitr⟩ := processLibrariesIter_found env i repo _ found hempty hf
      obtain ⟨extf, hfold, hall⟩ := foldl_processLibrary_adds env i
        ((libraryStateBefore env slice st i).DependencyMap repo.RepositoryName)
        (libraryStateBefore env slice st i, 0)
      rw [hdm] at hall
      obtain ⟨v, hv⟩ := hall d hd
      have hnew : new = extpre ++ (extf ++ ([Event.mk i Action.prune,
          Event.mk i (Action.dbUpdates
            (processLibrariesIter env i repo (libraryStateBefore env slice st i)).2)]
          ++ extpost)) := by
        have htotal : (processLibraries env slice st).1.trace
            = st.trace ++ (extpre ++ (extf ++ ([Event.mk i Action.prune,
                Event.mk i (Action.dbUpdates
                  (processLibrariesIter env i repo (libraryStateBefore env slice st i)).2)]
                ++ extpost))) := by
          rw [hfinal, hpost, hafter, hitr, hfold]
          have hb : (libraryStateBefore env slice st i).trace = st.trace ++ extpre := hpre
          simp only [hb, List.append_assoc]
        have htr2 : (processLibraries env slice st).1.trace = st.trace ++ new := htr
        rw [htr2] at htotal
        exact List.append_cancel_left htotal
      have hin : Event.mk i (Action.addToTotal d v) ∈ new := by
        rw [hnew]
        exact List.mem_append_right _ (List.mem_append_left _ hv)
      exact ⟨v, hin, hadd _ hin d v rfl⟩

/-- Two repositories that both require libfoo, from an empty cache: the download
command is run once for libfoo and once for libbar, the line counter is asked
once for each, and the totals "42" and "84" both contain the one cached count of
libfoo. -/
theorem processLibraries_memoizes_witness :
    ∃ new, (processLibraries (workingEnv 1) [repoP, repoQ] statePQ).1.trace
        = statePQ.trace ++ new
      ∧ downloaded new = ["example.com/libfoo@v1.2.0", "example.com/libbar@v0.1.0"]
      ∧ measured new = ["example.com/libfoo@v1.2.0", "example.com/libbar@v0.1.0"]
      ∧ (processLibraries (workingEnv 1) [repoP, repoQ] statePQ).1.LibraryCache
          "example.com/libfoo@v1.2.0" = some 42
      ∧ ((processLibraries (workingEnv 1) [repoP, repoQ] statePQ).2.map
          (fun r => r.LibraryCodebaseSize)) = ["42", "84"] := by
  obtain ⟨new, htr, _, _, hpair, _⟩ :=
    processLibraries_memoizes (workingEnv 1) [repoP, repoQ] statePQ
  have hnil : statePQ.trace = [] := rfl
  rw [hnil, List.nil_append] at htr
  have hm : measured (processLibraries (workingEnv 1) [repoP, repoQ] statePQ).1.trace
      = ["example.com/libfoo@v1.2.0", "example.com/libbar@v0.1.0"] := by decide
  rw [htr] at hm
  refine ⟨new, by rw [hnil, List.nil_append]; exact htr, ?_, hm, by decide, by decide⟩
  rw [hpair]
  exact hm

/-- C2: for every repository of the slice whose `LibraryCodebaseSize` is empty
at entry to `processLibraries`, when the process runs at entry and the
repositories to resolve have their records in a keyed store: the call returns,
and the value returned in the repository's slot and persisted by its pass as
`LibraryCodebaseSize` is the decimal rendering of the Go sum, over the entries
of `DependencyMap[RepositoryName]` in order, of the count the cache holds for the
entry; that count is the one already cached when the pass began, or else the
answer of the line counter when the pass measured the entry, stored in the cache
from then on. The Go sum is the sum reduced to 64 bits, and the exact sum when
that is in range; an empty dependency list gives "0". -/
theorem processLibraries_total (env : Env) (slice : List Repository) (st : State) (i : Nat)
    (repo : Repository) (hi : slice[i]? = some repo)
    (hempty : repo.LibraryCodebaseSize = "")
    (hrun : st.status = none) (hok : StoreOK st.db)
    (hstored : ∀ r ∈ slice, r.LibraryCodebaseSize = "" → repositoryExists st.db r = true) :
    ∃ r, (processLibraries env slice st).1.status = none
      ∧ (processLibraries env slice st).2[i]? = some r
      ∧ dbFirst (libraryStateAfter env slice st i).db repo.RepositoryUrl = some r
      ∧ r.RepositoryUrl = repo.RepositoryUrl
      ∧ r.LibraryCodebaseSize = Itoa (goSum ((st.DependencyMap repo.RepositoryName).map
          (fun d => ((processLibraries env slice st).1.LibraryCache d).getD 0)))
      ∧ goSum ((st.DependencyMap repo.RepositoryName).map
          (fun d => ((processLibraries env slice st).1.LibraryCache d).getD 0))
        = wrapInt ((st.DependencyMap repo.RepositoryName).map
          (fun d => ((processLibraries env slice st).1.LibraryCache d).getD 0)).sum
      ∧ (-2 ^ 63 ≤ ((st.DependencyMap repo.RepositoryName).map
            (fun d => ((processLibraries env slice st).1.LibraryCache d).getD 0)).sum
          ∧ ((st.DependencyMap repo.RepositoryName).map
            (fun d => ((processLibraries env slice st).1.LibraryCache d).getD 0)).sum < 2 ^ 63 →
          r.LibraryCodebaseSize = Itoa ((st.DependencyMap repo.RepositoryName).map
            (fun d => ((processLibraries env slice st).1.LibraryCache d).getD 0)).sum)
      ∧ (∀ d ∈ st.DependencyMap repo.RepositoryName, ∃ v,
          (processLibraries env slice st).1.LibraryCache d = some v
          ∧ ((libraryStateBefore env slice st i).LibraryCache d = some v
            ∨ ∃ before rest j,
                (libraryStateAfter env slice st i).trace
                  = (libraryStateBefore env slice st i).trace ++ (before
                    ++ Event.mk j (Action.countLibrary d (libraryPath env d)) :: rest)
                ∧ v = env.calculateCodeLines
                    ((libraryStateBefore env slice st i).trace ++ before) (libraryPath env d)))
      ∧ (st.DependencyMap repo.RepositoryName = [] → r.LibraryCodebaseSize = "0") := by
  have hfin : (processLibraries env slice st).1.status = none :=
    processLibrariesLoop_returns env slice 0 st hrun hok hstored
  obtain ⟨hbefore, hafter, hafterst, hfinal, hslot⟩ :=
    processLibraries_pass env slice st i repo hi hfin
  have hdm : (libraryStateBefore env slice st i).DependencyMap = st.DependencyMap :=
    processLibrariesLoop_dependencyMap env _ 0 st
  have hokb : StoreOK (libraryStateBefore env slice st i).db :=
    processLibrariesLoop_storeOK env _ 0 st hok
  cases hf : dbFirst (libraryStateBefore env slice st i).db repo.RepositoryUrl with
  | none =>
    have := processLibrariesIter_missing env i repo _ hempty hf
    rw [← hafter, hafterst] at this
    simp at this
  | some found =>
    obtain ⟨h2, hdb, hcache, _, _⟩ := processLibrariesIter_found env i repo _ found hempty hf
    rw [hdm] at h2 hcache
    -- the cache after the pass, and the final cache above it
    have hle : CacheLe (libraryStateAfter env slice st i).LibraryCache
        (processLibraries env slice st).1.LibraryCache := by
      rw [hfinal]
      exact processLibrariesLoop_cache_le env _ _ _ _ (fun _ _ h => h)
    have hle2 : CacheLe ((st.DependencyMap repo.RepositoryName).foldl (processLibrary env i)
        (libraryStateBefore env slice st i, 0)).1.LibraryCache
        (processLibraries env slice st).1.LibraryCache := by
      rw [← hcache, ← hafter]
      exact hle
    obtain ⟨htotal, hall⟩ := foldl_processLibrary_total env i
      (st.DependencyMap repo.RepositoryName) (libraryStateBefore env slice st i, 0)
      (processLibraries env slice st).1.LibraryCache hle2
    have hsize : (processLibrariesIter env i repo (libraryStateBefore env slice st i)).2.LibraryCodebaseSize
        = Itoa (goSum ((st.DependencyMap repo.RepositoryName).map
          (fun d => ((processLibraries env slice st).1.LibraryCache d).getD 0))) := by
      rw [h2]
      simp only
      rw [htotal]
      rfl
    have hurl : (processLibrariesIter env i repo (libraryStateBefore env slice st i)).2.RepositoryUrl
        = repo.RepositoryUrl := by
      rw [h2]
      exact (dbFirst_url hf : found.RepositoryUrl = repo.RepositoryUrl)
    -- the memoization invariant of the pass itself
    have hmemo : Memo env (libraryStateBefore env slice st i).LibraryCache
        (libraryStateBefore env slice st i).trace (libraryStateAfter env slice st i) := by
      have h := Memo_processLibrariesLoop env _ _ [repo] i _
        (Memo_entry env (libraryStateBefore env slice st i))
      simp only [processLibrariesLoop, hbefore] at h
      rw [hafter]
      exact h
    obtain ⟨_, new, htr, _, _, _, hprov⟩ := hmemo
    refine ⟨_, hfin, hslot, ?_, hurl, hsize, goSum_eq _, ?_, ?_, ?_⟩
    · rw [hafter, hdb, dbFirst_dbUpdates _ hokb found _ (dbFirst_mem hf) (by rw [h2])
        (by rw [h2]), hf]
      simp only [Option.map_some', Option.some.injEq]
      rw [if_pos (by rw [h2])]
      rw [h2]
      exact mergeNonZero_library found _ (Itoa_ne_empty _)
    · intro hrange
      rw [hsize, goSum_eq, wrapInt_of_range _ hrange.1 hrange.2]
    · intro d hd
      cases hcd : (processLibraries env slice st).1.LibraryCache d with
      | none => exact absurd hcd (hall d hd)
      | some v =>
        refine ⟨v, rfl, ?_⟩
        have hafterd : (libraryStateAfter env slice st i).LibraryCache d = some v := by
          have hne := (foldl_processLibrary_total env i
            (st.DependencyMap repo.RepositoryName) (libraryStateBefore env slice st i, 0)
            (libraryStateAfter env slice st i).LibraryCache
            (by rw [hafter, hcache]; exact fun _ _ h => h)).2 d hd
          cases ha : (libraryStateAfter env slice st i).LibraryCache d with
          | none => exact absurd ha hne
          | some w =>
            have := hle d w ha
            rw [hcd] at this
            rw [Option.some.inj this]
        rcases hprov d v hafterd with hc | ⟨before, rest, j, hnew, hv⟩
        · exact Or.inl hc
        · exact Or.inr ⟨before, rest, j, by rw [htr, hnew], hv⟩
    · intro hnil
      rw [hsize, hnil]
      show Itoa (goSum []) = "0"
      decide

/-- Two repositories that both require libfoo: the line counter is asked once
for libfoo and once for libbar, the first total is "42", the second "84". -/
theorem processLibraries_total_witness :
    [repoP, repoQ][1]? = some repoQ
    ∧ repoQ.LibraryCodebaseSize = ""
    ∧ statePQ.status = none
    ∧ StoreOK statePQ.db
    ∧ (∀ r ∈ [repoP, repoQ], r.LibraryCodebaseSize = "" → repositoryExists statePQ.db r = true)
    ∧ (processLibraries (workingEnv 1) [repoP, repoQ] statePQ).1.status = none
    ∧ (processLibraries (workingEnv 1) [repoP, repoQ] statePQ).2
        = [{ repoP with LibraryCodebaseSize := "42" }, { repoQ with LibraryCodebaseSize := "84" }]
    ∧ measured (processLibraries (workingEnv 1) [repoP, repoQ] statePQ).1.trace
        = ["example.com/libfoo@v1.2.0", "example.com/libbar@v0.1.0"]
    ∧ dbFirst (libraryStateAfter (workingEnv 1) [repoP, repoQ] statePQ 1).db
        repoQ.RepositoryUrl = some { repoQ with LibraryCodebaseSize := "84" } := by
  have hok : StoreOK statePQ.db := by
    unfold StoreOK
    decide
  have hstored : ∀ r ∈ [repoP, repoQ], r.LibraryCodebaseSize = "" →
      repositoryExists statePQ.db r = true := by decide
  obtain ⟨r, hfin, hslot, hdb, _⟩ := processLibraries_total (workingEnv 1) [repoP, repoQ]
    statePQ 1 repoQ (by decide) (by decide) rfl hok hstored
  have hout : (processLibraries (workingEnv 1) [repoP, repoQ] statePQ).2
      = [{ repoP with LibraryCodebaseSize := "42" },
         { repoQ with LibraryCodebaseSize := "84" }] := by decide
  have hr : r = { repoQ with LibraryCodebaseSize := "84" } := by
    rw [hout] at hslot
    simp only [List.getElem?_cons_succ, List.getElem?_cons_zero, Option.some.injEq] at hslot
    exact hslot.symm
  rw [hr] at hdb
  exact ⟨by decide, by decide, rfl, hok, hstored, hfin, hout, by decide, hdb⟩

/-! ## Measurement: the writes to `DependencyMap` and the mutex -/

/-- Forgetting the record of steps gives back `replaceLoop`. -/
theorem replaceLoopSync_state (env : Env) (i : Nat) (name url : String) (paths : List String)
    (acc : State × List SyncEvent) :
    (replaceLoopSync env i name url paths acc).1 = replaceLoop env i name url paths acc.1 := by
  induction paths generalizing acc with
  | nil => rfl
  | cons p rest ih =>
    simp only [replaceLoopSync, replaceLoop]
    split
    · split
      · exact ih _
      · exact ih _
    · exact ih _

/-- The replace loop adds to the record writes to `DependencyMap` only. -/
theorem replaceLoopSync_log (env : Env) (i : Nat) (name url : String) (paths : List String)
    (acc : State × List SyncEvent) :
    ∃ writes, (replaceLoopSync env i name url paths acc).2 = acc.2 ++ writes
      ∧ ∀ e ∈ writes, e = SyncEvent.writeDependencyMap name := by
  induction paths generalizing acc with
  | nil => exact ⟨[], by simp [replaceLoopSync], by simp⟩
  | cons p rest ih =>
    have key : ∀ S : State, ∃ writes,
        (replaceLoopSync env i name url rest
          (S, acc.2 ++ [SyncEvent.writeDependencyMap name])).2 = acc.2 ++ writes
        ∧ ∀ e ∈ writes, e = SyncEvent.writeDependencyMap name := by
      intro S
      obtain ⟨ws, h1, h2⟩ := ih (S, acc.2 ++ [SyncEvent.writeDependencyMap name])
      refine ⟨SyncEvent.writeDependencyMap name :: ws, ?_, ?_⟩
      · rw [h1]; simp
      · intro e he
        rcases List.mem_cons.mp he with he | he
        · exact he
        · exact h2 e he
    simp only [replaceLoopSync]
    split
    · split
      · exact ih _
      · exact key _
    · exact ih _

/-- Forgetting the record of steps gives back `generateDependenciesMap`. -/
theorem generateDependenciesMapSync_state (env : Env) (i : Nat) (repository : Repository)
    (acc : State × List SyncEvent) :
    (generateDependenciesMapSync env i repository acc).1
      = generateDependenciesMap env i repository acc.1 := by
  unfold generateDependenciesMapSync generateDependenciesMap
  simp only
  split
  · rfl
  · simp only [replaceLoopSync_state]

/-- The state of the record-keeping worker is the state in which the worker of
`processRepositories` leaves `generateDependenciesMap`. -/
theorem processRepositoryWorkerSync_state (env : Env) (i : Nat) (repo : Repository)
    (st : State) :
    (processRepositoryWorkerSync env i repo st).1
      = generateDependenciesMap env i repo (workerManifestState env i repo st) :=
  generateDependenciesMapSync_state env i repo _

/-- The worker leaves `DependencyMap` as `generateDependenciesMap` left it. -/
theorem processRepositoryWorker_dependencyMap (env : Env) (i : Nat) (repo : Repository)
    (st : State) :
    (processRepositoryWorker env i repo st).1.DependencyMap
      = (generateDependenciesMap env i repo (workerManifestState env i repo st)).DependencyMap := by
  unfold processRepositoryWorker workerManifestState
  simp only
  split
  · rfl
  · split <;> rfl

/-- A worker that ends with the process running has come out of
`generateDependenciesMap` with the process running. -/
theorem processRepositoryWorker_running (env : Env) (i : Nat) (repo : Repository) (st : State)
    (h : (processRepositoryWorker env i repo st).1.status = none) :
    (generateDependenciesMap env i repo (workerManifestState env i repo st)).status = none := by
  unfold processRepositoryWorker at h
  unfold workerManifestState
  simp only at h ⊢
  split at h
  · next a ha =>
    rw [ha] at h
    simp at h
  · next ha => exact ha

/-- The replace loop appends the nested requirements to the entry of the
repository and leaves every other entry of `DependencyMap` alone. -/
theorem replaceLoop_dependencyMap (env : Env) (i : Nat) (name url : String)
    (paths : List String) (st : State) :
    (replaceLoop env i name url paths st).DependencyMap name
        = st.DependencyMap name ++ replaceRequires env i url paths st.trace
    ∧ ∀ k, k ≠ name → (replaceLoop env i name url paths st).DependencyMap k
        = st.DependencyMap k := by
  induction paths generalizing st with
  | nil => simp [replaceLoop, replaceRequires]
  | cons p rest ih =>
    by_cases hl : env.isLocalPath p = true
    · simp only [replaceLoop, replaceRequires, hl, if_true]
      split
      · next hp =>
        refine ⟨?_, ?_⟩
        · rw [(ih _).1]
          rfl
        · intro k hk
          rw [(ih _).2 k hk]
          rfl
      · next inner hp =>
        refine ⟨?_, ?_⟩
        · rw [(ih _).1]
          simp [mapSet, State.emit]
        · intro k hk
          rw [(ih _).2 k hk]
          simp [mapSet, State.emit, hk]
    · simp only [replaceLoop, replaceRequires, hl]
      exact ih st

/-- With a manifest in `GoMods`, `generateDependenciesMap` leaves under the name
of the repository the deduplicated list of the old entries, the requirements of
the manifest and the nested requirements, and leaves every other entry alone. -/
theorem generateDependenciesMap_dependencyMap (env : Env) (i : Nat) (repository : Repository)
    (st : State) (goMod : GoMod) (hmod : st.GoMods repository.RepositoryUrl = some goMod) :
    (generateDependenciesMap env i repository st).DependencyMap repository.RepositoryName
        = RemoveDuplicates (st.DependencyMap repository.RepositoryName ++ goMod.Require
            ++ replaceRequires env i repository.RepositoryUrl goMod.Replace st.trace)
    ∧ (generateDependenciesMap env i repository st).status = st.status := by
  unfold generateDependenciesMap
  simp only [hmod]
  refine ⟨?_, (replaceLoop_frame env i _ _ _ _).2.2.1⟩
  simp only [mapSet, if_true]
  rw [(replaceLoop_dependencyMap env i _ _ _ _).1]
  simp [mapSet]

/-- The function `generateDependenciesMap` writes under the name of its
repository only. -/
theorem generateDependenciesMap_other_keys (env : Env) (i : Nat) (repository : Repository)
    (st : State) (k : String) (hk : k ≠ repository.RepositoryName) :
    (generateDependenciesMap env i repository st).DependencyMap k = st.DependencyMap k := by
  unfold generateDependenciesMap
  simp only
  split
  · rfl
  · simp only [mapSet, if_neg hk]
    rw [(replaceLoop_dependencyMap env i _ _ _ _).2 k hk]
    simp [mapSet, hk]

/-- A pass of the loop of `processRepositories` writes to `DependencyMap` under
the name of its repository only. -/
theorem processRepositoriesIter_other_keys (env : Env) (k : Nat) (repo : Repository)
    (s : State) (key : String) (hkey : key ≠ repo.RepositoryName) :
    (processRepositoriesIter env k repo s).1.DependencyMap key = s.DependencyMap key := by
  have hw : (processRepositoryWorker env k repo s).1.DependencyMap key = s.DependencyMap key := by
    rw [processRepositoryWorker_dependencyMap, generateDependenciesMap_other_keys _ _ _ _ _ hkey]
    rfl
  unfold processRepositoriesIter
  simp only
  split
  · split
    · rfl
    · split
      · exact hw
      · exact hw
  · rfl

/-- A pass that launches no worker only prunes. -/
theorem processRepositoriesIter_not_launched (env : Env) (k : Nat) (repo : Repository)
    (s : State) (h : ¬ workerLaunched repo s) :
    processRepositoriesIter env k repo s = (s.emit k Action.prune, repo) := by
  unfold workerLaunched at h
  unfold processRepositoriesIter
  simp only
  rw [if_neg h]

/-- A pass that launches its worker and ends with the process running: the
worker came out of `generateDependenciesMap` with the process running and the
pass leaves `DependencyMap` as that call left it. -/
theorem processRepositoriesIter_launched (env : Env) (k : Nat) (repo : Repository)
    (s : State) (hl : workerLaunched repo s)
    (hst : (processRepositoriesIter env k repo s).1.status = none) :
    (generateDependenciesMap env k repo (workerManifestState env k repo s)).status = none
    ∧ (processRepositoriesIter env k repo s).1.DependencyMap
        = (generateDependenciesMap env k repo (workerManifestState env k repo s)).DependencyMap := by
  unfold workerLaunched at hl
  unfold processRepositoriesIter at hst ⊢
  simp only at hst ⊢
  rw [if_pos hl] at hst ⊢
  split at hst
  · simp at hst
  · next hmax =>
    rw [if_neg hmax]
    split at hst
    · next a ha =>
      rw [ha] at hst
      simp at hst
    · next ha =>
      simp only [ha]
      exact ⟨processRepositoryWorker_running env k repo s ha,
        processRepositoryWorker_dependencyMap env k repo s⟩

/-- The loop of `processRepositories` leaves alone every entry of
`DependencyMap` whose key is not the name of a repository it visits. -/
theorem processRepositoriesLoop_other_keys (env : Env) (rest : List Repository) (k : Nat)
    (s : State) (key : String) (hkey : key ∉ rest.map (fun r => r.RepositoryName)) :
    (processRepositoriesLoop env k rest s).1.DependencyMap key = s.DependencyMap key := by
  induction rest generalizing k s with
  | nil => rfl
  | cons repo rest ih =>
    simp only [List.map_cons, List.mem_cons, not_or] at hkey
    unfold processRepositoriesLoop
    split
    · rfl
    · simp only
      rw [ih (k + 1) _ hkey.2, processRepositoriesIter_other_keys env k repo s key hkey.1]

/-- A loop that ends with the process running was started with it running. -/
theorem processRepositoriesLoop_running (env : Env) (rest : List Repository) (k : Nat)
    (s : State) (h : (processRepositoriesLoop env k rest s).1.status = none) :
    s.status = none := by
  cases hs : s.status with
  | none => rfl
  | some a =>
    rw [processRepositoriesLoop_stopped env k rest s a hs] at h
    rw [hs] at h
    exact h

/-- The run of `processRepositories` seen from index `i`, when the stage
returns: the loop reaches the index with the process running, makes the pass
for it, and goes on from the state the pass left. -/
theorem processRepositories_pass (env : Env) (slice : List Repository) (st : State) (i : Nat)
    (repo : Repository) (hi : slice[i]? = some repo)
    (hfin : (processRepositories env slice st).1.status = none) :
    slice = slice.take i ++ repo :: slice.drop (i + 1)
    ∧ (stateBefore env slice st i).status = none
    ∧ (processRepositoriesIter env i repo (stateBefore env slice st i)).1.status = none
    ∧ (processRepositories env slice st).1
        = (processRepositoriesLoop env (i + 1) (slice.drop (i + 1))
            (processRepositoriesIter env i repo (stateBefore env slice st i)).1).1 := by
  have hlt : i < slice.length := (List.getElem?_eq_some.mp hi).1
  have hget : slice[i] = repo := (List.getElem?_eq_some.mp hi).2
  have hsplit : slice = slice.take i ++ repo :: slice.drop (i + 1) := by
    rw [← hget]
    simp
  have hlen : (slice.take i).length = i := by
    rw [List.length_take]; omega
  have hmax : ¬ env.MaxRoutines < 0 := by
    intro hneg
    unfold processRepositories at hfin
    rw [if_pos hneg] at hfin
    simp at hfin
  have hrun : (processRepositories env slice st).1
      = (processRepositoriesLoop env i (repo :: slice.drop (i + 1))
          (stateBefore env slice st i)).1 := by
    unfold processRepositories
    rw [if_neg hmax]
    have h := processRepositoriesLoop_append env (slice.take i) (repo :: slice.drop (i + 1)) 0 st
    rw [← hsplit, hlen, Nat.zero_add] at h
    rw [h]
    rfl
  have hbefore : (stateBefore env slice st i).status = none := by
    apply processRepositoriesLoop_running env (repo :: slice.drop (i + 1)) i
    rw [← hrun]
    exact hfin
  have hcons : (processRepositoriesLoop env i (repo :: slice.drop (i + 1))
        (stateBefore env slice st i)).1
      = (processRepositoriesLoop env (i + 1) (slice.drop (i + 1))
          (processRepositoriesIter env i repo (stateBefore env slice st i)).1).1 := by
    simp [processRepositoriesLoop, hbefore]
  refine ⟨hsplit, hbefore, ?_, hrun.trans hcons⟩
  apply processRepositoriesLoop_running env (slice.drop (i + 1)) (i + 1)
  rw [← hcons, ← hrun]
  exact hfin

/-- With a manifest in `GoMods`, the worker's first write to `DependencyMap`
comes after it has released the mutex. -/
theorem processRepositoryWorkerSync_log (env : Env) (i : Nat) (repo : Repository) (st : State)
    (goMod : GoMod)
    (hmod : (workerManifestState env i repo st).GoMods repo.RepositoryUrl = some goMod) :
    ∃ rest, (processRepositoryWorkerSync env i repo st).2
      = [SyncEvent.lock, SyncEvent.writeGoMods repo.RepositoryUrl, SyncEvent.unlock,
          SyncEvent.writeDependencyMap repo.RepositoryName] ++ rest := by
  have key : ∀ S : State, ∃ ws,
      (replaceLoopSync env i repo.RepositoryName repo.RepositoryUrl goMod.Replace
        (S, [SyncEvent.lock, SyncEvent.writeGoMods repo.RepositoryUrl, SyncEvent.unlock]
          ++ [SyncEvent.writeDependencyMap repo.RepositoryName])).2
      = [SyncEvent.lock, SyncEvent.writeGoMods repo.RepositoryUrl, SyncEvent.unlock,
          SyncEvent.writeDependencyMap repo.RepositoryName] ++ ws := by
    intro S
    obtain ⟨ws, h, _⟩ := replaceLoopSync_log env i repo.RepositoryName repo.RepositoryUrl
      goMod.Replace (S, [SyncEvent.lock, SyncEvent.writeGoMods repo.RepositoryUrl,
        SyncEvent.unlock] ++ [SyncEvent.writeDependencyMap repo.RepositoryName])
    exact ⟨ws, h⟩
  unfold processRepositoryWorkerSync generateDependenciesMapSync
  simp only [hmod]
  obtain ⟨ws, h⟩ := key _
  exact ⟨ws ++ [SyncEvent.writeDependencyMap repo.RepositoryName], by rw [h]; simp⟩

/-- C11, as the code has it: for every slice of repositories with distinct
names, when `processRepositories` returns, no update of `DependencyMap` is lost.
The entry under the name of a repository is untouched before its pass and after
it; a repository for which no worker is launched keeps the entry it had, and one
for which a worker is launched has the deduplicated list of the old entries, the
requirements of its manifest and the requirements of its nested manifests. The
writes are not made under the mutex: the worker's first write to `DependencyMap`
comes after it has released `goModsMutex`. Updates are kept because the loop
waits for each worker before it launches the next. -/
theorem processRepositories_keeps_dependencies (env : Env) (slice : List Repository)
    (st : State) (i : Nat) (repo : Repository)
    (hnames : (slice.map (fun r => r.RepositoryName)).Nodup)
    (hi : slice[i]? = some repo)
    (hfin : (processRepositories env slice st).1.status = none) :
    (stateBefore env slice st i).DependencyMap repo.RepositoryName
        = st.DependencyMap repo.RepositoryName
    ∧ (processRepositories env slice st).1.DependencyMap repo.RepositoryName
        = (processRepositoriesIter env i repo
            (stateBefore env slice st i)).1.DependencyMap repo.RepositoryName
    ∧ (¬ workerLaunched repo (stateBefore env slice st i) →
        (processRepositories env slice st).1.DependencyMap repo.RepositoryName
          = st.DependencyMap repo.RepositoryName)
    ∧ (workerLaunched repo (stateBefore env slice st i) →
        ∃ goMod rest,
          (workerManifestState env i repo (stateBefore env slice st i)).GoMods
              repo.RepositoryUrl = some goMod
          ∧ (processRepositories env slice st).1.DependencyMap repo.RepositoryName
              = RemoveDuplicates (st.DependencyMap repo.RepositoryName ++ goMod.Require
                  ++ replaceRequires env i repo.RepositoryUrl goMod.Replace
                      (workerManifestState env i repo (stateBefore env slice st i)).trace)
          ∧ ((processRepositories env slice st).1.DependencyMap repo.RepositoryName).Nodup
          ∧ (processRepositoryWorkerSync env i repo (stateBefore env slice st i)).1
              = generateDependenciesMap env i repo
                  (workerManifestState env i repo (stateBefore env slice st i))
          ∧ (processRepositoryWorkerSync env i repo (stateBefore env slice st i)).2
              = [SyncEvent.lock, SyncEvent.writeGoMods repo.RepositoryUrl, SyncEvent.unlock,
                  SyncEvent.writeDependencyMap repo.RepositoryName] ++ rest
          ∧ guardedWrites false
              (processRepositoryWorkerSync env i repo (stateBefore env slice st i)).2
              = false) := by
  obtain ⟨hsplit, _, hiterst, hfinal⟩ := processRepositories_pass env slice st i repo hi hfin
  -- the name of the repository is the name of no other slot
  have hnd : (slice.take i ++ repo :: slice.drop (i + 1)).map (fun r => r.RepositoryName)
      |>.Nodup := by
    rw [← hsplit]; exact hnames
  rw [List.map_append, List.map_cons, List.nodup_append] at hnd
  obtain ⟨_, hright, hdisj⟩ := hnd
  have hpre : repo.RepositoryName ∉ (slice.take i).map (fun r => r.RepositoryName) := by
    intro hin
    exact hdisj hin (List.mem_cons_self _ _)
  have hpost : repo.RepositoryName ∉ (slice.drop (i + 1)).map (fun r => r.RepositoryName) :=
    (List.nodup_cons.mp hright).1
  have hbeforeDM : (stateBefore env slice st i).DependencyMap repo.RepositoryName
      = st.DependencyMap repo.RepositoryName :=
    processRepositoriesLoop_other_keys env _ 0 st _ hpre
  have hafterDM : (processRepositories env slice st).1.DependencyMap repo.RepositoryName
      = (processRepositoriesIter env i repo
          (stateBefore env slice st i)).1.DependencyMap repo.RepositoryName := by
    rw [hfinal]
    exact processRepositoriesLoop_other_keys env _ _ _ _ hpost
  refine ⟨hbeforeDM, hafterDM, ?_, ?_⟩
  · intro hnot
    rw [hafterDM, processRepositoriesIter_not_launched env i repo _ hnot]
    exact hbeforeDM
  · intro hl
    obtain ⟨hgen, hdm⟩ := processRepositoriesIter_launched env i repo _ hl hiterst
    cases hmod : (workerManifestState env i repo (stateBefore env slice st i)).GoMods
        repo.RepositoryUrl with
    | none =>
      have hpanic : (generateDependenciesMap env i repo
          (workerManifestState env i repo (stateBefore env slice st i))).status
          = some Abort.panicked := by
        simp [generateDependenciesMap, hmod]
      rw [hgen] at hpanic
      simp at hpanic
    | some goMod =>
      obtain ⟨rest, hlog⟩ := processRepositoryWorkerSync_log env i repo _ goMod hmod
      have hval : (processRepositories env slice st).1.DependencyMap repo.RepositoryName
          = RemoveDuplicates (st.DependencyMap repo.RepositoryName ++ goMod.Require
              ++ replaceRequires env i repo.RepositoryUrl goMod.Replace
                  (workerManifestState env i repo (stateBefore env slice st i)).trace) := by
        rw [hafterDM, hdm, (generateDependenciesMap_dependencyMap env i repo _ goMod hmod).1]
        have hsame : (workerManifestState env i repo (stateBefore env slice st i)).DependencyMap
            = (stateBefore env slice st i).DependencyMap := rfl
        rw [hsame, hbeforeDM]
      refine ⟨goMod, rest, rfl, hval, ?_, processRepositoryWorkerSync_state env i repo _,
        hlog, ?_⟩
      · rw [hval, RemoveDuplicates_eq_firstOccurrences]
        exact firstOccurrences_nodup _
      · rw [hlog]
        simp [guardedWrites]

/-- Two repositories with distinct names, both measured by the stage: the
second has its requirement in `DependencyMap` when the stage returns. -/
theorem processRepositories_keeps_dependencies_witness :
    ([repoA, repoB].map (fun r => r.RepositoryName)).Nodup
    ∧ [repoA, repoB][1]? = some repoB
    ∧ (processRepositories (workingEnv 1) [repoA, repoB] stateAB).1.status = none
    ∧ (processRepositories (workingEnv 1) [repoA, repoB] stateAB).1.DependencyMap "a"
        = ["example.com/x"]
    ∧ (processRepositories (workingEnv 1) [repoA, repoB] stateAB).1.DependencyMap "b"
        = ["example.com/x"]
    ∧ (stateBefore (workingEnv 1) [repoA, repoB] stateAB 1).DependencyMap repoB.RepositoryName
        = stateAB.DependencyMap repoB.RepositoryName := by
  have h := processRepositories_keeps_dependencies (workingEnv 1) [repoA, repoB] stateAB 1 repoB
    (by decide) (by decide) (by decide)
  exact ⟨by decide, by decide, by decide, by decide, by decide, h.1⟩

/-- C11 as stated fails on the code: in a stage over one repository that
returns with the requirement of the repository in `DependencyMap`, the worker
locks, writes `GoMods`, unlocks, and only then writes `DependencyMap`, twice:
neither write is made while the mutex is held. -/
theorem processRepositories_writes_outside_mutex :
    ([repoA].map (fun r => r.RepositoryName)).Nodup
    ∧ (processRepositories (workingEnv 1) [repoA] stateA).1.status = none
    ∧ (processRepositories (workingEnv 1) [repoA] stateA).1.DependencyMap "a"
        = ["example.com/x"]
    ∧ stateBefore (workingEnv 1) [repoA] stateA 0 = stateA
    ∧ (processRepositoryWorkerSync (workingEnv 1) 0 repoA stateA).2
        = [SyncEvent.lock, SyncEvent.writeGoMods "github.com/org/a", SyncEvent.unlock,
            SyncEvent.writeDependencyMap "a", SyncEvent.writeDependencyMap "a"]
    ∧ ¬ (guardedWrites false (processRepositoryWorkerSync (workingEnv 1) 0 repoA stateA).2
          = true) := by
  refine ⟨by decide, by decide, by decide, rfl, by decide, by decide⟩

/-! ## Measurement: when the stage returns -/

/-- A worker whose manifest parses and whose record is in the store ends with
the process running. -/
theorem processRepositoryWorker_returns (env : Env) (k : Nat) (repo : Repository) (s : State)
    (hs : s.status = none) (hparse : ∀ trace path, env.parseGoMod trace path ≠ none)
    (hfound : dbFirst s.db repo.RepositoryUrl ≠ none) :
    (processRepositoryWorker env k repo s).1.status = none := by
  have hmod : ∃ g, (workerManifestState env k repo s).GoMods repo.RepositoryUrl = some g := by
    have hget : (workerManifestState env k repo s).GoMods repo.RepositoryUrl
        = env.parseGoMod ((s.emit k (Action.gitClone ("https://" ++ repo.RepositoryUrl ++ ".git")
            ("tmp" ++ "/" ++ repo.RepositoryName))).emit k
            (Action.countRepository ("tmp" ++ "/" ++ repo.RepositoryName))).trace
            (repo.RepositoryName ++ "/" ++ "go.mod") := by
      simp [workerManifestState, mapSet]
    rw [hget]
    cases hp : env.parseGoMod ((s.emit k (Action.gitClone
        ("https://" ++ repo.RepositoryUrl ++ ".git")
        ("tmp" ++ "/" ++ repo.RepositoryName))).emit k
        (Action.countRepository ("tmp" ++ "/" ++ repo.RepositoryName))).trace
        (repo.RepositoryName ++ "/" ++ "go.mod") with
    | none => exact absurd hp (hparse _ _)
    | some g => exact ⟨g, rfl⟩
  obtain ⟨g, hg⟩ := hmod
  have hgst : (generateDependenciesMap env k repo (workerManifestState env k repo s)).status
      = none := by
    rw [(generateDependenciesMap_dependencyMap env k repo _ g hg).2]
    exact hs
  have hdb : (generateDependenciesMap env k repo (workerManifestState env k repo s)).db
      = s.db := (generateDependenciesMap_frame env k repo _).1
  unfold workerManifestState at hgst hdb
  simp only at hgst hdb
  unfold processRepositoryWorker
  simp only [hgst, hdb]
  cases hf : dbFirst s.db repo.RepositoryUrl with
  | none => exact absurd hf hfound
  | some found =>
    simp only [State.emit]
    exact hgst

/-- When the process runs at entry, the semaphore has a slot and every manifest
parses, `processRepositories` returns. -/
theorem processRepositories_returns (env : Env) (slice : List Repository) (st : State)
    (hs : st.status = none) (hmax : 0 < env.MaxRoutines)
    (hparse : ∀ trace path, env.parseGoMod trace path ≠ none) :
    (processRepositories env slice st).1.status = none := by
  have hiter : ∀ (k : Nat) (repo : Repository) (s : State), s.status = none →
      (processRepositoriesIter env k repo s).1.status = none := by
    intro k repo s hsn
    by_cases hl : workerLaunched repo s
    · have hfound : dbFirst s.db repo.RepositoryUrl ≠ none := by
        intro hnone
        have := hl.2
        rw [hnone] at this
        exact this rfl
      have hw := processRepositoryWorker_returns env k repo s hsn hparse hfound
      unfold workerLaunched at hl
      unfold processRepositoriesIter
      simp only
      rw [if_pos hl, if_neg (by omega)]
      simp only [hw]
      exact hw
    · rw [processRepositoriesIter_not_launched env k repo s hl]
      exact hsn
  have hloop : ∀ (rest : List Repository) (k : Nat) (s : State), s.status = none →
      (processRepositoriesLoop env k rest s).1.status = none := by
    intro rest
    induction rest with
    | nil => intro k s h; exact h
    | cons repo rest ih =>
      intro k s h
      simp only [processRepositoriesLoop, h]
      exact ih (k + 1) _ (hiter k repo s h)
  unfold processRepositories
  rw [if_neg (by omega)]
  exact hloop slice 0 st hs

end Glsgen
